import Mathlib

/-!
Verification development for the WCRP mixture model implementation
(`src/MixtureWCRP.cpp`, `include/MixtureWCRP.hpp`).

The C++ chain state (seating arrangement, per-table sizes, per-(table, student)
trial-index lists, BKT parameter records, recorded samples) is embedded as a
Lean structure `ChainState`; the mutating member functions
(`assign_item_to_table`, `remove_item_from_table`, `gibbs_resample_skill`,
`record_sample`) become pure state transformers, with the pseudo-random draws
(fresh BKT parameter records, the Gibbs categorical draw) passed in as explicit
arguments.  `double` is modelled as `ℝ` (exact real arithmetic); `size_t`
decrements are modelled with an explicit wrap at `2 ^ 64`; fallible code
(`std::map::at`, failing `assert`) returns `Option`.
-/

set_option maxHeartbeats 1000000
set_option maxRecDepth 2000

namespace WCRP

/-- Decrement of a C++ `size_t` value: subtraction of one modulo `2 ^ 64`.
Models the `--` operator applied to `table_sizes[table_id]` and
`num_used_skills` in `MixtureWCRP.cpp`. -/
def usub1 (n : Nat) : Nat := (n + (2 ^ 64 - 1)) % 2 ^ 64

theorem usub1_succ {n : Nat} (h : n + 1 < 2 ^ 64) : usub1 (n + 1) = n := by
  unfold usub1
  have : n + 1 + (2 ^ 64 - 1) = n + 2 ^ 64 := by omega
  rw [this, Nat.add_mod_right, Nat.mod_eq_of_lt (by omega)]

/-- Ordered merge of two (ascending) lists, keeping duplicates and taking from
the first list on ties: the behaviour of `std::merge` as used in
`MixtureWCRP::assign_item_to_table`. -/
def mergeAsc : List Nat → List Nat → List Nat
  | [], l₂ => l₂
  | l₁, [] => l₁
  | a :: as, b :: bs =>
      if a ≤ b then a :: mergeAsc as (b :: bs) else b :: mergeAsc (a :: as) bs
termination_by l₁ l₂ => l₁.length + l₂.length

/-- Greedy removal of the subsequence `skip` from `l`, scanning `l` once and
dropping each element equal to the current head of `skip`: the loop of
`MixtureWCRP::remove_item_from_table` that deletes an item's trial indices
from a student's per-skill trial list. -/
def removeSeq : List Nat → List Nat → List Nat
  | [], _ => []
  | x :: xs, [] => x :: removeSeq xs []
  | x :: xs, y :: ys => if x = y then removeSeq xs ys else x :: removeSeq xs (y :: ys)

/-- Ordered insertion into a sorted duplicate-free list: the behaviour of
`std::set::insert` on `extant_tables`. -/
def insertSorted (x : Nat) : List Nat → List Nat
  | [] => [x]
  | y :: ys => if x < y then x :: y :: ys else if x = y then y :: ys else y :: insertSorted x ys

theorem mergeAsc_nil_right (l : List Nat) : mergeAsc l [] = l := by
  cases l <;> simp [mergeAsc]

theorem mergeAsc_cons_left {x : Nat} {a b : List Nat} (h : ∀ y ∈ b, x ≤ y) :
    mergeAsc (x :: a) b = x :: mergeAsc a b := by
  cases b with
  | nil => rw [mergeAsc_nil_right, mergeAsc_nil_right]
  | cons y ys =>
      simp only [mergeAsc]
      rw [if_pos (h y (by simp))]

theorem mergeAsc_cons_right {y : Nat} {a ys : List Nat} (h : ∀ z ∈ a, y < z) :
    mergeAsc a (y :: ys) = y :: mergeAsc a ys := by
  cases a with
  | nil => simp [mergeAsc]
  | cons z zs =>
      simp only [mergeAsc]
      rw [if_neg (by exact Nat.not_le.mpr (h z (by simp)))]

theorem removeSeq_nil_right (l : List Nat) : removeSeq l [] = l := by
  induction l with
  | nil => rfl
  | cons x xs ih => unfold removeSeq; rw [ih]

theorem removeSeq_subset (l skip : List Nat) : ∀ x ∈ removeSeq l skip, x ∈ l := by
  induction l generalizing skip with
  | nil => intro x hx; simp [removeSeq] at hx
  | cons a as ih =>
      intro x hx
      cases skip with
      | nil => rw [removeSeq_nil_right] at hx; exact hx
      | cons y ys =>
          unfold removeSeq at hx
          by_cases h : a = y
          · rw [if_pos h] at hx
            exact List.mem_cons_of_mem a (ih ys x hx)
          · rw [if_neg h] at hx
            rcases List.mem_cons.mp hx with h1 | h1
            · simp [h1]
            · exact List.mem_cons_of_mem a (ih (y :: ys) x h1)

/-- Merging back the removed subsequence restores the original sorted list. -/
theorem mergeAsc_removeSeq {l skip : List Nat} (hs : List.Sublist skip l)
    (hl : l.Pairwise (· < ·)) : mergeAsc (removeSeq l skip) skip = l := by
  induction l generalizing skip with
  | nil =>
      have : skip = [] := List.sublist_nil.mp hs
      subst this; simp [removeSeq, mergeAsc]
  | cons x xs ih =>
      have hx : ∀ y ∈ xs, x < y := fun y hy => (List.pairwise_cons.mp hl).1 y hy
      have hxs : xs.Pairwise (· < ·) := (List.pairwise_cons.mp hl).2
      cases skip with
      | nil => rw [removeSeq_nil_right, mergeAsc_nil_right]
      | cons y ys =>
          by_cases hxy : x = y
          · subst hxy
            have hys : List.Sublist ys xs := by
              cases hs with
              | cons _ h => exact (List.sublist_cons_self x ys).trans h
              | cons₂ _ h => exact h
            unfold removeSeq
            rw [if_pos rfl]
            have hmr : mergeAsc (removeSeq xs ys) (x :: ys) =
                x :: mergeAsc (removeSeq xs ys) ys :=
              mergeAsc_cons_right (fun z hz => hx z (removeSeq_subset xs ys z hz))
            rw [hmr, ih hys hxs]
          · have hyxs : List.Sublist (y :: ys) xs := by
              cases hs with
              | cons _ h => exact h
              | cons₂ _ h => exact absurd rfl hxy
            unfold removeSeq
            rw [if_neg hxy]
            have hmem : ∀ z ∈ y :: ys, x ≤ z := by
              intro z hz
              exact Nat.le_of_lt (hx z (hyxs.subset hz))
            rw [mergeAsc_cons_left hmem, ih hyxs hxs]

/-- Merging two disjoint filters of a strictly sorted list yields the filter of
the disjunction. -/
theorem mergeAsc_filter {l : List Nat} (p q : Nat → Bool)
    (hl : l.Pairwise (· < ·)) (hdisj : ∀ x ∈ l, ¬(p x = true ∧ q x = true)) :
    mergeAsc (l.filter p) (l.filter q) = l.filter (fun x => p x || q x) := by
  induction l with
  | nil => simp [mergeAsc]
  | cons x xs ih =>
      have hx : ∀ y ∈ xs, x < y := fun y hy => (List.pairwise_cons.mp hl).1 y hy
      have hxs : xs.Pairwise (· < ·) := (List.pairwise_cons.mp hl).2
      have hdisj' : ∀ y ∈ xs, ¬(p y = true ∧ q y = true) :=
        fun y hy => hdisj y (List.mem_cons_of_mem x hy)
      by_cases hp : p x = true
      · have hq : ¬ q x = true := fun hq => hdisj x (by simp) ⟨hp, hq⟩
        rw [List.filter_cons_of_pos hp, List.filter_cons_of_neg (by simpa using hq),
          List.filter_cons_of_pos (by simp [hp])]
        have : ∀ y ∈ xs.filter q, x ≤ y := by
          intro y hy
          exact Nat.le_of_lt (hx y (List.mem_of_mem_filter hy))
        rw [mergeAsc_cons_left this, ih hxs hdisj']
      · by_cases hq : q x = true
        · simp only [List.filter_cons]
          rw [if_neg (by simp [hp]), if_pos hq, if_pos (by simp [hq])]
          have : ∀ z ∈ xs.filter p, x < z := by
            intro z hz
            exact hx z (List.mem_of_mem_filter hz)
          rw [mergeAsc_cons_right this, ih hxs hdisj']
        · simp only [List.filter_cons]
          rw [if_neg (by simp [hp]), if_neg (by simp [hq]),
            if_neg (by simp [hp, hq]), ih hxs hdisj']

/-- On a strictly sorted list, greedily deleting a sorted subsequence equals
filtering out its elements. -/
theorem removeSeq_eq_filter {l skip : List Nat} (hs : List.Sublist skip l)
    (hl : l.Pairwise (· < ·)) :
    removeSeq l skip = l.filter (fun x => decide (x ∉ skip)) := by
  induction l generalizing skip with
  | nil =>
      have : skip = [] := List.sublist_nil.mp hs
      subst this; rfl
  | cons x xs ih =>
      have hx : ∀ y ∈ xs, x < y := fun y hy => (List.pairwise_cons.mp hl).1 y hy
      have hxs : xs.Pairwise (· < ·) := (List.pairwise_cons.mp hl).2
      have hxnotxs : x ∉ xs := fun hmem => Nat.lt_irrefl x (hx x hmem)
      cases skip with
      | nil => rw [removeSeq_nil_right]; simp
      | cons y ys =>
          by_cases hxy : x = y
          · subst hxy
            have hys : List.Sublist ys xs := by
              cases hs with
              | cons _ h => exact (List.sublist_cons_self x ys).trans h
              | cons₂ _ h => exact h
            unfold removeSeq
            rw [if_pos rfl, ih hys hxs]
            rw [List.filter_cons_of_neg (by simp)]
            apply List.filter_congr
            intro z hz
            have hzx : z ≠ x := fun h => hxnotxs (h ▸ hz)
            simp [hzx]
          · have hyxs : List.Sublist (y :: ys) xs := by
              cases hs with
              | cons _ h => exact h
              | cons₂ _ h => exact absurd rfl hxy
            have hxnotskip : x ∉ y :: ys := by
              intro hmem
              exact hxnotxs (hyxs.subset hmem)
            unfold removeSeq
            rw [if_neg hxy, ih hyxs hxs, List.filter_cons_of_pos (by simpa using hxnotskip)]

theorem mem_insertSorted {x y : Nat} {l : List Nat} :
    y ∈ insertSorted x l ↔ y = x ∨ y ∈ l := by
  induction l with
  | nil => simp [insertSorted]
  | cons z zs ih =>
      unfold insertSorted
      by_cases h1 : x < z
      · rw [if_pos h1]; simp
      · rw [if_neg h1]
        by_cases h2 : x = z
        · rw [if_pos h2]; subst h2; simp
        · rw [if_neg h2]; simp [ih]; tauto

theorem pairwise_insertSorted {x : Nat} {l : List Nat}
    (hl : l.Pairwise (· < ·)) : (insertSorted x l).Pairwise (· < ·) := by
  induction l with
  | nil => simp [insertSorted]
  | cons z zs ih =>
      have hz : ∀ y ∈ zs, z < y := fun y hy => (List.pairwise_cons.mp hl).1 y hy
      have hzs : zs.Pairwise (· < ·) := (List.pairwise_cons.mp hl).2
      unfold insertSorted
      by_cases h1 : x < z
      · rw [if_pos h1]
        exact List.pairwise_cons.mpr ⟨by
          intro y hy
          rcases List.mem_cons.mp hy with h | h
          · exact h ▸ h1
          · exact Nat.lt_trans h1 (hz y h), hl⟩
      · rw [if_neg h1]
        by_cases h2 : x = z
        · rw [if_pos h2]; exact hl
        · rw [if_neg h2]
          have hxz : z < x := by omega
          exact List.pairwise_cons.mpr ⟨by
            intro y hy
            rcases mem_insertSorted.mp hy with h | h
            · exact h ▸ hxz
            · exact hz y h, ih hzs⟩

theorem length_insertSorted_of_not_mem {x : Nat} {l : List Nat} (h : x ∉ l) :
    (insertSorted x l).length = l.length + 1 := by
  induction l with
  | nil => rfl
  | cons z zs ih =>
      unfold insertSorted
      by_cases h1 : x < z
      · rw [if_pos h1]; rfl
      · rw [if_neg h1]
        have h2 : x ≠ z := fun hc => h (by simp [hc])
        rw [if_neg h2]
        simp only [List.length_cons]
        rw [ih (fun hc => h (by simp [hc]))]

/-- Changing a predicate at a single member of a duplicate-free list shifts its
`countP` by the difference at that member. -/
theorem countP_update {l : List Nat} {i₀ : Nat} (p p' : Nat → Bool)
    (hnd : l.Nodup) (hmem : i₀ ∈ l) (hsame : ∀ x ∈ l, x ≠ i₀ → p' x = p x) :
    l.countP p' + (if p i₀ then 1 else 0) = l.countP p + (if p' i₀ then 1 else 0) := by
  induction l with
  | nil => simp at hmem
  | cons a as ih =>
      have hndas : as.Nodup := (List.nodup_cons.mp hnd).2
      have hanotas : a ∉ as := (List.nodup_cons.mp hnd).1
      rcases List.mem_cons.mp hmem with h | h
      · rw [h]
        have hrest : as.countP p' = as.countP p := by
          apply List.countP_congr
          intro x hx
          have e := hsame x (List.mem_cons_of_mem a hx)
            (fun hc => hanotas (by rw [← h, ← hc]; exact hx))
          rw [e]
        simp only [List.countP_cons, hrest]
        by_cases hp : p a = true <;> by_cases hp' : p' a = true <;>
          simp [hp, hp']
      · have ha : p' a = p a := hsame a (by simp) (fun hc => hanotas (hc ▸ h))
        have := ih hndas h (fun x hx hne => hsame x (List.mem_cons_of_mem a hx) hne)
        simp only [List.countP_cons, ha]
        omega

/-- Restricting `List.range len` to indices below `start ≤ len` gives
`List.range start`. -/
theorem filter_range_lt {start len : Nat} (h : start ≤ len) :
    (List.range len).filter (fun j => decide (j < start)) = List.range start := by
  obtain ⟨d, rfl⟩ := Nat.exists_eq_add_of_le h
  induction d with
  | zero =>
      simp only [Nat.add_zero]
      apply List.filter_eq_self.mpr
      intro j hj
      simpa using List.mem_range.mp hj
  | succ n ih =>
      have : start + (n + 1) = (start + n) + 1 := by omega
      rw [this, List.range_succ, List.filter_append]
      rw [ih (by omega)]
      simp

/-- A strictly sorted list splits into the elements below `s` followed by the
elements at or above `s`. -/
theorem sorted_split_filter {l : List Nat} (s : Nat) (hl : l.Pairwise (· < ·)) :
    l.filter (fun j => decide (j < s)) ++ l.filter (fun j => !decide (j < s)) = l := by
  induction l with
  | nil => simp
  | cons x xs ih =>
      have hx : ∀ y ∈ xs, x < y := fun y hy => (List.pairwise_cons.mp hl).1 y hy
      have hxs : xs.Pairwise (· < ·) := (List.pairwise_cons.mp hl).2
      by_cases h : x < s
      · rw [List.filter_cons_of_pos (by simpa using h),
          List.filter_cons_of_neg (by simpa using h)]
        simp only [List.cons_append]
        rw [ih hxs]
      · have h1 : xs.filter (fun j => decide (j < s)) = [] := by
          apply List.filter_eq_nil_iff.mpr
          intro y hy
          have := hx y hy
          simp; omega
        rw [List.filter_cons_of_neg (by simpa using h),
          List.filter_cons_of_pos (by simpa using h), h1]
        simp only [List.nil_append, List.cons.injEq, true_and]
        apply List.filter_eq_self.mpr
        intro y hy
        have := hx y hy
        simp; omega

/-- A filter by a stronger predicate is a sublist of the filter by a weaker
one. -/
theorem filter_sublist_filter_of_imp {l : List Nat} {p q : Nat → Bool}
    (h : ∀ x ∈ l, q x = true → p x = true) :
    List.Sublist (l.filter q) (l.filter p) := by
  induction l with
  | nil => simp
  | cons x xs ih =>
      have ih' := ih (fun y hy => h y (List.mem_cons_of_mem x hy))
      by_cases hq : q x = true
      · rw [List.filter_cons_of_pos hq, List.filter_cons_of_pos (h x (by simp) hq)]
        exact ih'.cons₂ x
      · rw [List.filter_cons_of_neg (by simpa using hq)]
        by_cases hp : p x = true
        · rw [List.filter_cons_of_pos hp]
          exact ih'.cons x
        · rw [List.filter_cons_of_neg (by simpa using hp)]
          exact ih'

theorem list_sum_nonpos {l : List ℝ} (h : ∀ x ∈ l, x ≤ 0) : l.sum ≤ 0 := by
  induction l with
  | nil => simp
  | cons a as ih =>
      simp only [List.sum_cons]
      have h1 := h a (by simp)
      have h2 := ih (fun x hx => h x (List.mem_cons_of_mem a hx))
      linarith

/-- The unassigned-table sentinel.  Modelled from the spec: `common.hpp` is not
part of `src/`; the spec calls this the sentinel "unassigned", and
`MixtureWCRP.cpp` pins its value through `tables_ever_instantiated(UNASSIGNED+1)`
together with real tables being numbered from `1 + expert_label ≥ 1`, so the
sentinel is `0`. -/
def UNASSIGNED : Nat := 0

/-- The immutable inputs consumed by the `MixtureWCRP` constructor. -/
structure Dataset where
  num_students : Nat
  num_items : Nat
  train_students : List Nat
  recall_sequences : List (List Bool)
  item_sequences : List (List Nat)
  provided_skill_assignments : List Nat

namespace Dataset

def seqOf (D : Dataset) (s : Nat) : List Nat := D.item_sequences.getD s []

def recallOf (D : Dataset) (s : Nat) : List Bool := D.recall_sequences.getD s []

def itemAt (D : Dataset) (s j : Nat) : Nat := (D.seqOf s).getD j 0

def recallAt (D : Dataset) (s j : Nat) : Bool := (D.recallOf s).getD j false

def labelOf (D : Dataset) (i : Nat) : Nat := D.provided_skill_assignments.getD i 0

/-- `num_expert_provided_skills = 1 + *max_element(provided_skill_assignments)`. -/
def num_expert_provided_skills (D : Dataset) : Nat :=
  1 + D.provided_skill_assignments.foldr max 0

/-- `trials_studied[student][item]`: the trial indices at which `student`
studied `item`, in increasing order (built by the constructor's scan of the
trial sequence). -/
def trials_studied (D : Dataset) (s i : Nat) : List Nat :=
  (List.range (D.seqOf s).length).filter (fun j => D.itemAt s j == i)

/-- `ever_studied[student][item]`: true iff `student` is a training student
and studied `item` at some trial. -/
def ever_studied (D : Dataset) (s i : Nat) : Bool :=
  D.train_students.contains s && (D.seqOf s).contains i

/-- `students_who_studied[item]`: the training students who studied `item`,
in increasing student order. -/
def students_who_studied (D : Dataset) (i : Nat) : List Nat :=
  (List.range D.num_students).filter (fun s => D.ever_studied s i)

/-- `first_encounter[student][item]`: the first trial index at which the
student studied the item, or the sequence length if they never did. -/
def first_encounter (D : Dataset) (s i : Nat) : Nat :=
  (D.seqOf s).findIdx (fun x => x == i)

end Dataset

/-- Well-formedness facts the constructor asserts or that follow from the C++
types (`size_t` bounds; parallel per-student recall/item sequences; items in
range). -/
structure DatasetWF (D : Dataset) : Prop where
  items_lt : D.num_items < 2 ^ 64
  seq_count : D.item_sequences.length = D.num_students
  recall_count : D.recall_sequences.length = D.num_students
  len_eq : ∀ s, (D.recallOf s).length = (D.seqOf s).length
  items_in_range : ∀ s j, j < (D.seqOf s).length → D.itemAt s j < D.num_items

/-- A per-skill BKT parameter record (`struct bkt_parameters`). -/
structure BktParams where
  psi : ℝ
  mu : ℝ
  pi1 : ℝ
  prop0 : ℝ
deriving Inhabited

/-- The mutable `MixtureWCRP` chain state: maps are modelled as total
functions into `Option`, absent keys being `none`. -/
structure ChainState where
  seating_arrangement : Nat → Nat
  parameters : Nat → Option BktParams
  num_used_skills : Nat
  table_sizes : Nat → Option Nat
  extant_tables : List Nat
  trial_lookup : Nat → Nat → Option (List Nat)
  tables_ever_instantiated : Nat
  pRT_samples : Nat → Nat → List ℝ
  skill_label_samples : List (List Nat)
  train_ll_samples : List ℝ

/-- `MixtureWCRP::assign_item_to_table`.  The pseudo-random parameter record a
new table draws via `draw_bkt_param_prior` is passed in as `new_params`. -/
def assign_item_to_table (D : Dataset) (st : ChainState) (item table_id : Nat)
    (is_new_table : Bool) (new_params : BktParams) : ChainState :=
  if is_new_table then
    { st with
      parameters := fun t => if t = table_id then some new_params else st.parameters t,
      seating_arrangement := fun i => if i = item then table_id else st.seating_arrangement i,
      table_sizes := fun t => if t = table_id then some 1 else st.table_sizes t,
      extant_tables := insertSorted table_id st.extant_tables,
      num_used_skills := st.num_used_skills + 1,
      trial_lookup := fun t s =>
        if t = table_id then
          if (D.students_who_studied item).contains s then some (D.trials_studied s item)
          else none
        else st.trial_lookup t s }
  else
    { st with
      seating_arrangement := fun i => if i = item then table_id else st.seating_arrangement i,
      table_sizes := fun t =>
        if t = table_id then some ((st.table_sizes table_id).getD 0 + 1)
        else st.table_sizes t,
      trial_lookup := fun t s =>
        if t = table_id then
          if (D.students_who_studied item).contains s then
            match st.trial_lookup table_id s with
            | none => some (D.trials_studied s item)
            | some l => some (mergeAsc l (D.trials_studied s item))
          else st.trial_lookup t s
        else st.trial_lookup t s }

/-- `MixtureWCRP::remove_item_from_table`; the returned flag is the C++
return value (`true` iff the table was deleted).  The decremented size
`usub1 ((st.table_sizes table_id).getD 0)` is the C++ local `newSize`
(`table_sizes[table_id]--` on the `size_t` map entry, default-created at 0
when absent). -/
def remove_item_from_table (D : Dataset) (st : ChainState) (item table_id : Nat) :
    ChainState × Bool :=
  if usub1 ((st.table_sizes table_id).getD 0) = 0 then
    ({ st with
        seating_arrangement := fun i => if i = item then UNASSIGNED else st.seating_arrangement i,
        table_sizes := fun t => if t = table_id then none else st.table_sizes t,
        parameters := fun t => if t = table_id then none else st.parameters t,
        extant_tables := st.extant_tables.erase table_id,
        num_used_skills := usub1 st.num_used_skills,
        trial_lookup := fun t s => if t = table_id then none else st.trial_lookup t s }, true)
  else
    ({ st with
        seating_arrangement := fun i => if i = item then UNASSIGNED else st.seating_arrangement i,
        table_sizes := fun t =>
          if t = table_id then some (usub1 ((st.table_sizes table_id).getD 0))
          else st.table_sizes t,
        trial_lookup := fun t s =>
          if t = table_id then
            if (D.students_who_studied item).contains s then
              let l := (st.trial_lookup table_id s).getD []
              if l.length - (D.trials_studied s item).length = 0 then none
              else some (removeSeq l (D.trials_studied s item))
            else st.trial_lookup t s
          else st.trial_lookup t s }, false)

/-- Overwriting one key of the `parameters` map (`parameters[table_id] = p`,
as done by `gibbs_resample_skill`, the singleton-likelihood precomputation,
and the in-place BKT slice-sampling writes). -/
def set_table_params (st : ChainState) (table_id : Nat) (p : BktParams) : ChainState :=
  { st with parameters := fun t => if t = table_id then some p else st.parameters t }

/-- The chain state before the constructor seats any item. -/
def emptyState : ChainState where
  seating_arrangement := fun _ => UNASSIGNED
  parameters := fun _ => none
  num_used_skills := 0
  table_sizes := fun _ => none
  extant_tables := []
  trial_lookup := fun _ _ => none
  tables_ever_instantiated := UNASSIGNED + 1
  pRT_samples := fun _ _ => []
  skill_label_samples := []
  train_ll_samples := []

/-- One step of the constructor's initial seating loop: item `item` is seated
at table `1 + provided_skill_assignments[item]`, as a new table iff that
table was not created for an earlier item. -/
def initSeatStep (D : Dataset) (π : Nat → BktParams) (st : ChainState) (item : Nat) :
    ChainState :=
  assign_item_to_table D st item (1 + D.labelOf item)
    (!((List.range item).map D.labelOf).contains (D.labelOf item)) (π item)

/-- The chain state built by the `MixtureWCRP` constructor's initial seating
loop (seating every item by its expert label) followed by the
`tables_ever_instantiated += num_expert_provided_skills + 1` adjustment.
`π` supplies the parameter records drawn from the prior for new tables. -/
def initState (D : Dataset) (π : Nat → BktParams) : ChainState :=
  let st := (List.range D.num_items).foldl (initSeatStep D π) emptyState
  { st with tables_ever_instantiated :=
      st.tables_ever_instantiated + D.num_expert_provided_skills + 1 }

/-- State effect of `MixtureWCRP::gibbs_resample_skill`: remove the item, then
for every extant table assign and remove it again (the paired calls used to
evaluate the data likelihood with and without the item), then commit the drawn
event — a fresh table numbered by `tables_ever_instantiated++` whose
parameters are overwritten with the chosen auxiliary prior draw, or one of the
extant tables.  `drawn_event` is the pseudo-random categorical draw and
`pool_params`/`fresh_params` the pseudo-random parameter records; the
data-likelihood and seating-probability computations between the paired calls
read but never write the chain state, so they do not appear in the state
effect. -/
def gibbs_resample_skill (D : Dataset) (st : ChainState) (item : Nat)
    (drawn_event : Nat) (pool_params fresh_params scratch_params : BktParams) :
    ChainState :=
  let cur := st.seating_arrangement item
  let st1 := (remove_item_from_table D st item cur).1
  let keys := st1.extant_tables
  let st2 := keys.foldl (fun acc t =>
      (remove_item_from_table D (assign_item_to_table D acc item t false scratch_params)
        item t).1) st1
  if keys.length ≤ drawn_event then
    let stNew := assign_item_to_table D st2 item st2.tables_ever_instantiated true fresh_params
    set_table_params
      { stNew with tables_ever_instantiated := stNew.tables_ever_instantiated + 1 }
      (stNew.seating_arrangement item) pool_params
  else
    assign_item_to_table D st2 item (keys.getD drawn_event 0) false scratch_params

/-- The chain states reachable through the partition-mutating operations, from
construction: the constructor's initial seating, assignment of an unassigned
item to an extant table, creation of a fresh table numbered by
`tables_ever_instantiated++`, removal of a seated item, and overwriting an
existing table's parameter record.  The preconditions are those guaranteed at
every C++ call site. -/
inductive Reachable (D : Dataset) : ChainState → Prop where
  | init (π : Nat → BktParams) : Reachable D (initState D π)
  | assign_old (st : ChainState) (item table_id : Nat) (p : BktParams) :
      Reachable D st →
      st.seating_arrangement item = UNASSIGNED → item < D.num_items →
      table_id ≠ UNASSIGNED → (st.table_sizes table_id).isSome →
      Reachable D (assign_item_to_table D st item table_id false p)
  | assign_new (st : ChainState) (item : Nat) (p : BktParams) :
      Reachable D st →
      st.seating_arrangement item = UNASSIGNED → item < D.num_items →
      Reachable D
        (let st' := assign_item_to_table D st item st.tables_ever_instantiated true p
         { st' with tables_ever_instantiated := st'.tables_ever_instantiated + 1 })
  | remove (st : ChainState) (item table_id : Nat) :
      Reachable D st →
      st.seating_arrangement item = table_id → item < D.num_items →
      table_id ≠ UNASSIGNED →
      Reachable D (remove_item_from_table D st item table_id).1
  | set_params (st : ChainState) (table_id : Nat) (p : BktParams) :
      Reachable D st →
      (st.parameters table_id).isSome →
      Reachable D (set_table_params st table_id p)

/-- The trial indices of student `s` falling on items currently seated at
table `t`, in increasing order. -/
def skillTrials (D : Dataset) (st : ChainState) (t s : Nat) : List Nat :=
  (List.range (D.seqOf s).length).filter
    (fun j => st.seating_arrangement (D.itemAt s j) == t)

/-- The value `trial_lookup[t][s]` must hold in any reachable state: present
iff `s` is a training student with at least one trial on an item seated at
`t`, and then equal to `skillTrials`. -/
def lookupSpec (D : Dataset) (st : ChainState) (t s : Nat) : Option (List Nat) :=
  if D.train_students.contains s ∧ skillTrials D st t s ≠ [] then
    some (skillTrials D st t s)
  else none

/-- The number of items currently seated at table `t`. -/
def countItems (D : Dataset) (st : ChainState) (t : Nat) : Nat :=
  (List.range D.num_items).countP (fun i => st.seating_arrangement i == t)

/-- The counter-free part of the chain-state invariant maintained by the
partition operations. -/
structure Inv0 (D : Dataset) (st : ChainState) : Prop where
  sizes_spec : ∀ t, t ≠ UNASSIGNED →
    st.table_sizes t = if countItems D st t = 0 then none else some (countItems D st t)
  lookup_spec : ∀ t s, t ≠ UNASSIGNED → st.trial_lookup t s = lookupSpec D st t s
  params_iff : ∀ t, (st.parameters t).isSome ↔ (st.table_sizes t).isSome
  extant_iff : ∀ t, t ∈ st.extant_tables ↔ (st.table_sizes t).isSome
  extant_sorted : st.extant_tables.Pairwise (· < ·)
  used_eq : st.num_used_skills = st.extant_tables.length
  zero_sizes : st.table_sizes UNASSIGNED = none
  zero_lookup : ∀ s, st.trial_lookup UNASSIGNED s = none

/-- The full chain-state invariant: `Inv0` plus the facts that every
registered table id is below the `tables_ever_instantiated` counter. -/
structure Inv (D : Dataset) (st : ChainState) extends Inv0 D st : Prop where
  dom_lt : ∀ t, (st.table_sizes t).isSome → t < st.tables_ever_instantiated
  one_le_ctr : 1 ≤ st.tables_ever_instantiated

theorem mergeAsc_length (l₁ l₂ : List Nat) :
    (mergeAsc l₁ l₂).length = l₁.length + l₂.length := by
  induction l₁ generalizing l₂ with
  | nil => simp [mergeAsc]
  | cons a as ih =>
      induction l₂ with
      | nil => simp [mergeAsc]
      | cons b bs ih2 =>
          simp only [mergeAsc]
          by_cases h : a ≤ b
          · rw [if_pos h]
            simp only [List.length_cons, ih]
            omega
          · rw [if_neg h]
            simp only [List.length_cons] at ih2 ⊢
            omega

theorem removeSeq_length {l skip : List Nat} (hs : List.Sublist skip l) :
    (removeSeq l skip).length = l.length - skip.length := by
  induction l generalizing skip with
  | nil =>
      have : skip = [] := List.sublist_nil.mp hs
      subst this; simp [removeSeq]
  | cons x xs ih =>
      cases skip with
      | nil => rw [removeSeq_nil_right]; simp
      | cons y ys =>
          by_cases hxy : x = y
          · subst hxy
            have hys : List.Sublist ys xs := by
              cases hs with
              | cons _ h => exact (List.sublist_cons_self x ys).trans h
              | cons₂ _ h => exact h
            unfold removeSeq
            rw [if_pos rfl, ih hys]
            simp only [List.length_cons]
            omega
          · have hyxs : List.Sublist (y :: ys) xs := by
              cases hs with
              | cons _ h => exact h
              | cons₂ _ h => exact absurd rfl hxy
            unfold removeSeq
            rw [if_neg hxy]
            simp only [List.length_cons, ih hyxs]
            have := hyxs.length_le
            simp only [List.length_cons] at this
            omega

namespace Dataset

theorem mem_trials_studied {D : Dataset} {s i j : Nat} :
    j ∈ D.trials_studied s i ↔ j < (D.seqOf s).length ∧ D.itemAt s j = i := by
  simp [trials_studied, List.mem_filter, List.mem_range]

theorem itemAt_mem_seqOf {D : Dataset} {s j : Nat} (h : j < (D.seqOf s).length) :
    D.itemAt s j ∈ D.seqOf s := by
  unfold itemAt
  rw [List.getD_eq_getElem _ _ h]
  exact List.getElem_mem h

theorem trials_studied_ne_nil {D : Dataset} {s i : Nat} (h : i ∈ D.seqOf s) :
    D.trials_studied s i ≠ [] := by
  obtain ⟨j, hj, hget⟩ := List.getElem_of_mem h
  have : j ∈ D.trials_studied s i := by
    apply mem_trials_studied.mpr
    refine ⟨hj, ?_⟩
    unfold itemAt
    rw [List.getD_eq_getElem _ _ hj, hget]
  exact fun hnil => by simp [hnil] at this

theorem trials_studied_eq_nil {D : Dataset} {s i : Nat} (h : i ∉ D.seqOf s) :
    D.trials_studied s i = [] := by
  apply List.filter_eq_nil_iff.mpr
  intro j hj
  simp only [beq_iff_eq]
  intro hc
  exact h (hc ▸ itemAt_mem_seqOf (List.mem_range.mp hj))

theorem mem_students_who_studied {D : Dataset} {s i : Nat} :
    s ∈ D.students_who_studied i ↔
      s < D.num_students ∧ D.train_students.contains s ∧ (D.seqOf s).contains i := by
  simp [students_who_studied, ever_studied, List.mem_filter, List.mem_range,
    Bool.and_eq_true, and_assoc]

theorem seqOf_eq_nil_of_ge {D : Dataset} (hWF : DatasetWF D) {s : Nat}
    (h : D.num_students ≤ s) : D.seqOf s = [] := by
  unfold seqOf
  apply List.getD_eq_default
  rw [hWF.seq_count]
  exact h

theorem trials_studied_pairwise (D : Dataset) (s i : Nat) :
    (D.trials_studied s i).Pairwise (· < ·) :=
  (List.pairwise_lt_range _).filter _

end Dataset

theorem skillTrials_pairwise (D : Dataset) (st : ChainState) (t s : Nat) :
    (skillTrials D st t s).Pairwise (· < ·) :=
  (List.pairwise_lt_range _).filter _

theorem skillTrials_eq_nil_of_ge {D : Dataset} (hWF : DatasetWF D) (st : ChainState)
    {t s : Nat} (h : D.num_students ≤ s) : skillTrials D st t s = [] := by
  unfold skillTrials
  rw [Dataset.seqOf_eq_nil_of_ge hWF h]
  rfl

/-- The item's own trials form a sublist of the skill's trials when the item
is seated at the skill. -/
theorem trials_studied_sublist_skillTrials {D : Dataset} {st : ChainState}
    {t s item : Nat} (h : st.seating_arrangement item = t) :
    List.Sublist (D.trials_studied s item) (skillTrials D st t s) := by
  apply filter_sublist_filter_of_imp
  intro j _ hj
  have : D.itemAt s j = item := by simpa using hj
  simp [this, h]

/-- A seating update touching only `item` leaves `skillTrials` at a table
that is neither the source nor the target unchanged. -/
theorem skillTrials_update_of_ne {D : Dataset} {st st' : ChainState} {item v t : Nat}
    (hseat : st'.seating_arrangement =
      fun i => if i = item then v else st.seating_arrangement i)
    (hv : v ≠ t) (hold : st.seating_arrangement item ≠ t) (s : Nat) :
    skillTrials D st' t s = skillTrials D st t s := by
  unfold skillTrials
  rw [hseat]
  apply List.filter_congr
  intro j _
  by_cases h : D.itemAt s j = item
  · simp [h, hv, hold]
  · simp [h]

/-- Seating `item` (previously not at `t`) at table `t` merges the item's own
trials into `skillTrials`. -/
theorem skillTrials_update_assign {D : Dataset} {st st' : ChainState} {item t : Nat}
    (hseat : st'.seating_arrangement =
      fun i => if i = item then t else st.seating_arrangement i)
    (hold : st.seating_arrangement item ≠ t) (s : Nat) :
    skillTrials D st' t s = mergeAsc (skillTrials D st t s) (D.trials_studied s item) := by
  unfold skillTrials Dataset.trials_studied
  rw [hseat]
  rw [mergeAsc_filter _ _ (List.pairwise_lt_range _)
    (by
      intro j _ ⟨h1, h2⟩
      simp only [beq_iff_eq] at h1 h2
      exact hold (h2 ▸ h1))]
  apply List.filter_congr
  intro j _
  by_cases h : D.itemAt s j = item
  · simp [h, hold]
  · simp [h]

/-- Unseating `item` from table `t` removes the item's own trials from
`skillTrials`. -/
theorem skillTrials_update_remove {D : Dataset} {st st' : ChainState} {item t : Nat}
    (hseat : st'.seating_arrangement =
      fun i => if i = item then UNASSIGNED else st.seating_arrangement i)
    (hold : st.seating_arrangement item = t) (ht : t ≠ UNASSIGNED) (s : Nat) :
    skillTrials D st' t s =
      (skillTrials D st t s).filter (fun x => decide (x ∉ D.trials_studied s item)) := by
  unfold skillTrials
  rw [hseat, List.filter_filter]
  apply List.filter_congr
  intro j hj
  by_cases h : D.itemAt s j = item
  · have hmem : j ∈ D.trials_studied s item :=
      Dataset.mem_trials_studied.mpr ⟨List.mem_range.mp hj, h⟩
    simp [h, hmem, Ne.symm ht, hold]
  · have hnmem : j ∉ D.trials_studied s item := by
      intro hc
      exact h (Dataset.mem_trials_studied.mp hc).2
    simp [h, hnmem]

theorem countItems_update_of_ne {D : Dataset} {st st' : ChainState} {item v t : Nat}
    (hseat : st'.seating_arrangement =
      fun i => if i = item then v else st.seating_arrangement i)
    (hv : v ≠ t) (hold : st.seating_arrangement item ≠ t) :
    countItems D st' t = countItems D st t := by
  unfold countItems
  rw [hseat]
  apply List.countP_congr
  intro i _
  by_cases h : i = item
  · simp [h, hv, hold]
  · simp [h]

theorem countItems_update_assign {D : Dataset} {st st' : ChainState} {item t : Nat}
    (hseat : st'.seating_arrangement =
      fun i => if i = item then t else st.seating_arrangement i)
    (hold : st.seating_arrangement item ≠ t) (hN : item < D.num_items) :
    countItems D st' t = countItems D st t + 1 := by
  unfold countItems
  rw [hseat]
  show (List.range D.num_items).countP
      (fun i => (if i = item then t else st.seating_arrangement i) == t) = _
  have h := countP_update (fun i => st.seating_arrangement i == t)
    (fun i => (if i = item then t else st.seating_arrangement i) == t)
    (List.nodup_range D.num_items) (List.mem_range.mpr hN)
    (by intro x _ hx; simp [hx])
  rw [if_neg (by simp [hold]), if_pos (by simp)] at h
  omega

theorem countItems_update_remove {D : Dataset} {st st' : ChainState} {item t : Nat}
    (hseat : st'.seating_arrangement =
      fun i => if i = item then UNASSIGNED else st.seating_arrangement i)
    (hold : st.seating_arrangement item = t) (ht : t ≠ UNASSIGNED) (hN : item < D.num_items) :
    countItems D st t = countItems D st' t + 1 := by
  unfold countItems
  rw [hseat]
  show _ = (List.range D.num_items).countP
      (fun i => (if i = item then UNASSIGNED else st.seating_arrangement i) == t) + 1
  have h := countP_update (fun i => st.seating_arrangement i == t)
    (fun i => (if i = item then UNASSIGNED else st.seating_arrangement i) == t)
    (List.nodup_range D.num_items) (List.mem_range.mpr hN)
    (by intro x _ hx; simp [hx])
  rw [if_pos (by simp [hold])] at h
  rw [if_neg (by simp [Ne.symm ht])] at h
  omega

theorem countItems_pos {D : Dataset} {st : ChainState} {item t : Nat}
    (h : st.seating_arrangement item = t) (hN : item < D.num_items) :
    0 < countItems D st t := by
  apply List.countP_pos_iff.mpr
  exact ⟨item, List.mem_range.mpr hN, by simp [h]⟩

theorem countItems_le {D : Dataset} (st : ChainState) (t : Nat) :
    countItems D st t ≤ D.num_items := by
  unfold countItems
  calc (List.range D.num_items).countP _ ≤ (List.range D.num_items).length :=
        List.countP_le_length _
    _ = D.num_items := List.length_range _

/-- If no item is seated at `t`, every `skillTrials` list at `t` is empty. -/
theorem skillTrials_eq_nil_of_countItems_eq_zero {D : Dataset} (hWF : DatasetWF D)
    {st : ChainState} {t : Nat} (h : countItems D st t = 0) (s : Nat) :
    skillTrials D st t s = [] := by
  apply List.filter_eq_nil_iff.mpr
  intro j hj
  simp only [beq_iff_eq]
  intro hc
  have hrange : D.itemAt s j < D.num_items :=
    hWF.items_in_range s j (List.mem_range.mp hj)
  have : 0 < countItems D st t := countItems_pos hc hrange
  omega

/-- Extant tables inject into items through an occupant, so there are at most
`num_items` of them. -/
theorem extant_length_le {D : Dataset} {st : ChainState}
    (hsorted : st.extant_tables.Pairwise (· < ·))
    (hocc : ∀ t ∈ st.extant_tables, 0 < countItems D st t) :
    st.extant_tables.length ≤ D.num_items := by
  classical
  set f : Nat → Nat :=
    fun t => ((List.range D.num_items).filter
      (fun i => st.seating_arrangement i == t)).headD 0 with hf
  have hmem : ∀ t ∈ st.extant_tables,
      f t ∈ (List.range D.num_items).filter (fun i => st.seating_arrangement i == t) := by
    intro t ht
    have hne : (List.range D.num_items).filter
        (fun i => st.seating_arrangement i == t) ≠ [] := by
      have := hocc t ht
      unfold countItems at this
      rw [List.countP_eq_length_filter] at this
      intro hc
      rw [hc] at this
      simp at this
    cases hcase : (List.range D.num_items).filter
        (fun i => st.seating_arrangement i == t) with
    | nil => exact absurd hcase hne
    | cons a l => rw [hf]; simp [hcase]
  have hseatf : ∀ t ∈ st.extant_tables, st.seating_arrangement (f t) = t := by
    intro t ht
    have := hmem t ht
    have := (List.mem_filter.mp this).2
    simpa using this
  have hnd : st.extant_tables.Nodup := hsorted.imp (fun {a b} h => Nat.ne_of_lt h)
  have hnodup : (st.extant_tables.map f).Nodup := by
    apply hnd.map_on
    intro x hx y hy hxy
    have h1 := hseatf x hx
    have h2 := hseatf y hy
    rw [← h1, ← h2, hxy]
  have hsub : st.extant_tables.map f ⊆ List.range D.num_items := by
    intro x hx
    obtain ⟨t, ht, rfl⟩ := List.mem_map.mp hx
    exact (List.mem_filter.mp (hmem t ht)).1
  calc st.extant_tables.length = (st.extant_tables.map f).length :=
        (List.length_map _ _).symm
    _ ≤ (List.range D.num_items).length := (hnodup.subperm hsub).length_le
    _ = D.num_items := List.length_range _

theorem Inv0.zero_params {D : Dataset} {st : ChainState} (h : Inv0 D st) :
    st.parameters UNASSIGNED = none := by
  have := h.params_iff UNASSIGNED
  rw [h.zero_sizes] at this
  simp only [Option.isSome_none, Bool.false_eq_true, iff_false] at this
  exact Option.not_isSome_iff_eq_none.mp this

theorem Inv0.sizes_eq_count {D : Dataset} {st : ChainState} (h : Inv0 D st) {t : Nat}
    (ht : t ≠ UNASSIGNED) (hs : (st.table_sizes t).isSome) :
    st.table_sizes t = some (countItems D st t) ∧ countItems D st t ≠ 0 := by
  have hspec := h.sizes_spec t ht
  by_cases hc : countItems D st t = 0
  · rw [if_pos hc] at hspec
    rw [hspec] at hs
    simp at hs
  · rw [if_neg hc] at hspec
    exact ⟨hspec, hc⟩

/-- In an invariant state, any training student who studied `item` has a
(nonempty) lookup entry for the table `item` is seated at. -/
theorem Inv0.lookup_of_studied {D : Dataset} {st : ChainState} (h : Inv0 D st)
    {t s item : Nat} (ht : t ≠ UNASSIGNED) (hseat : st.seating_arrangement item = t)
    (hstud : s ∈ D.students_who_studied item) :
    st.trial_lookup t s = some (skillTrials D st t s) ∧ skillTrials D st t s ≠ [] := by
  obtain ⟨_, htr, hcont⟩ := Dataset.mem_students_who_studied.mp hstud
  have hitem : item ∈ D.seqOf s := List.elem_iff.mp hcont
  have hits : D.trials_studied s item ≠ [] := Dataset.trials_studied_ne_nil hitem
  have hsub := trials_studied_sublist_skillTrials (D := D) (s := s) hseat
  have hne : skillTrials D st t s ≠ [] := by
    intro hc
    rw [hc] at hsub
    exact hits (List.sublist_nil.mp hsub)
  refine ⟨?_, hne⟩
  rw [h.lookup_spec t s ht]
  unfold lookupSpec
  rw [if_pos ⟨htr, hne⟩]

/-- `assign_item_to_table` with `is_new_table = false`, called on an
unassigned item and an extant table, preserves the invariant. -/
theorem inv0_assign_old {D : Dataset} {st : ChainState} (hWF : DatasetWF D)
    (h : Inv0 D st) {item table_id : Nat} (p : BktParams)
    (hseat : st.seating_arrangement item = UNASSIGNED) (hN : item < D.num_items)
    (ht : table_id ≠ UNASSIGNED) (hsz : (st.table_sizes table_id).isSome) :
    Inv0 D (assign_item_to_table D st item table_id false p) := by
  set A := assign_item_to_table D st item table_id false p with hA
  have hseatA : A.seating_arrangement =
      fun i => if i = item then table_id else st.seating_arrangement i := by
    rw [hA]; simp [assign_item_to_table]
  have hsizesA : A.table_sizes =
      fun t => if t = table_id then some ((st.table_sizes table_id).getD 0 + 1)
        else st.table_sizes t := by
    rw [hA]; simp [assign_item_to_table]
  have hlookA : A.trial_lookup = fun t s =>
      if t = table_id then
        if (D.students_who_studied item).contains s then
          match st.trial_lookup table_id s with
          | none => some (D.trials_studied s item)
          | some l => some (mergeAsc l (D.trials_studied s item))
        else st.trial_lookup t s
      else st.trial_lookup t s := by
    rw [hA]; simp [assign_item_to_table]
  have hparamsA : A.parameters = st.parameters := by
    rw [hA]; simp [assign_item_to_table]
  have hextA : A.extant_tables = st.extant_tables := by
    rw [hA]; simp [assign_item_to_table]
  have husedA : A.num_used_skills = st.num_used_skills := by
    rw [hA]; simp [assign_item_to_table]
  have holdt : st.seating_arrangement item ≠ table_id := by rw [hseat]; exact Ne.symm ht
  obtain ⟨hszeq, hc0⟩ := h.sizes_eq_count ht hsz
  constructor
  · -- sizes_spec
    intro t htz
    simp only [hsizesA]
    by_cases htt : t = table_id
    · subst htt
      rw [if_pos rfl, hszeq]
      have hcnt := countItems_update_assign hseatA holdt hN
      rw [hcnt]
      simp only [Option.getD_some]
      rw [if_neg (by omega)]
    · rw [if_neg htt]
      have hcnt := countItems_update_of_ne (D := D) hseatA
        (fun hc => htt hc.symm) (by rw [hseat]; exact Ne.symm htz)
      rw [hcnt]
      exact h.sizes_spec t htz
  · -- lookup_spec
    intro t s htz
    simp only [hlookA]
    by_cases htt : t = table_id
    · subst htt
      rw [if_pos rfl]
      by_cases hstud : (D.students_who_studied item).contains s
      · rw [if_pos hstud]
        have hmem : s ∈ D.students_who_studied item := List.elem_iff.mp hstud
        obtain ⟨hlt, htr, hcont⟩ := Dataset.mem_students_who_studied.mp hmem
        have hitem : item ∈ D.seqOf s := List.elem_iff.mp hcont
        have hits : D.trials_studied s item ≠ [] := Dataset.trials_studied_ne_nil hitem
        have hmerge := skillTrials_update_assign (D := D) hseatA holdt s
        have hnonempty : skillTrials D A t s ≠ [] := by
          rw [hmerge]
          intro hc
          have := mergeAsc_length (skillTrials D st t s) (D.trials_studied s item)
          rw [hc] at this
          simp only [List.length_nil] at this
          have := List.length_pos.mpr hits
          omega
        cases hlk : st.trial_lookup t s with
        | none =>
            have hspec := h.lookup_spec t s ht
            rw [hlk] at hspec
            unfold lookupSpec at hspec
            have hempty : skillTrials D st t s = [] := by
              by_contra hcc
              rw [if_pos ⟨htr, hcc⟩] at hspec
              exact Option.noConfusion hspec
            unfold lookupSpec
            rw [if_pos ⟨htr, hnonempty⟩, hmerge, hempty]
            simp [mergeAsc]
        | some l =>
            have hspec := h.lookup_spec t s ht
            rw [hlk] at hspec
            unfold lookupSpec at hspec
            by_cases hcc : D.train_students.contains s ∧ skillTrials D st t s ≠ []
            · rw [if_pos hcc] at hspec
              have hleq : l = skillTrials D st t s := by
                injection hspec
              unfold lookupSpec
              rw [if_pos ⟨htr, hnonempty⟩, hmerge, hleq]
            · rw [if_neg hcc] at hspec
              exact Option.noConfusion hspec
      · rw [if_neg hstud]
        rw [h.lookup_spec t s ht]
        have hmerge := skillTrials_update_assign (D := D) hseatA holdt s
        by_cases htr : D.train_students.contains s
        · by_cases hlt : s < D.num_students
          · have hni : ¬ (D.seqOf s).contains item = true := by
              intro hcont
              exact hstud (List.elem_iff.mpr
                (Dataset.mem_students_who_studied.mpr ⟨hlt, htr, hcont⟩))
            have hnil : D.trials_studied s item = [] :=
              Dataset.trials_studied_eq_nil (fun hm => hni (List.elem_iff.mpr hm))
            unfold lookupSpec
            rw [hmerge, hnil, mergeAsc_nil_right]
          · have h1 := skillTrials_eq_nil_of_ge hWF st
              (t := t) (s := s) (by omega)
            have h2 := skillTrials_eq_nil_of_ge hWF A
              (t := t) (s := s) (by omega)
            unfold lookupSpec
            rw [h1, h2]
        · unfold lookupSpec
          rw [if_neg (fun hc => htr hc.1), if_neg (fun hc => htr hc.1)]
    · rw [if_neg htt]
      rw [h.lookup_spec t s htz]
      have heq := skillTrials_update_of_ne (D := D) hseatA
        (fun hc => htt hc.symm) (by rw [hseat]; exact Ne.symm htz) s
      unfold lookupSpec
      rw [heq]
  · -- params_iff
    intro t
    simp only [hparamsA, hsizesA]
    by_cases htt : t = table_id
    · subst htt
      rw [if_pos rfl]
      simp only [Option.isSome_some, iff_true]
      rw [h.params_iff]
      exact hsz
    · rw [if_neg htt]
      exact h.params_iff t
  · -- extant_iff
    intro t
    simp only [hextA, hsizesA]
    by_cases htt : t = table_id
    · subst htt
      rw [if_pos rfl]
      simp only [Option.isSome_some, iff_true]
      exact (h.extant_iff t).mpr hsz
    · rw [if_neg htt]
      exact h.extant_iff t
  · rw [hextA]; exact h.extant_sorted
  · rw [husedA, hextA]; exact h.used_eq
  · simp only [hsizesA]
    rw [if_neg (Ne.symm ht)]
    exact h.zero_sizes
  · intro s
    simp only [hlookA]
    rw [if_neg (Ne.symm ht)]
    exact h.zero_lookup s

/-- `assign_item_to_table` with `is_new_table = true`, called on an unassigned
item and an unregistered table id, preserves the invariant. -/
theorem inv0_assign_new {D : Dataset} {st : ChainState} (hWF : DatasetWF D)
    (h : Inv0 D st) {item table_id : Nat} (p : BktParams)
    (hseat : st.seating_arrangement item = UNASSIGNED) (hN : item < D.num_items)
    (ht : table_id ≠ UNASSIGNED) (hsz : st.table_sizes table_id = none) :
    Inv0 D (assign_item_to_table D st item table_id true p) := by
  set A := assign_item_to_table D st item table_id true p with hA
  have hseatA : A.seating_arrangement =
      fun i => if i = item then table_id else st.seating_arrangement i := by
    rw [hA]; simp [assign_item_to_table]
  have hsizesA : A.table_sizes =
      fun t => if t = table_id then some 1 else st.table_sizes t := by
    rw [hA]; simp [assign_item_to_table]
  have hlookA : A.trial_lookup = fun t s =>
      if t = table_id then
        if (D.students_who_studied item).contains s then some (D.trials_studied s item)
        else none
      else st.trial_lookup t s := by
    rw [hA]; simp [assign_item_to_table]
  have hparamsA : A.parameters =
      fun t => if t = table_id then some p else st.parameters t := by
    rw [hA]; simp [assign_item_to_table]
  have hextA : A.extant_tables = insertSorted table_id st.extant_tables := by
    rw [hA]; simp [assign_item_to_table]
  have husedA : A.num_used_skills = st.num_used_skills + 1 := by
    rw [hA]; simp [assign_item_to_table]
  have holdt : st.seating_arrangement item ≠ table_id := by rw [hseat]; exact Ne.symm ht
  have hc0 : countItems D st table_id = 0 := by
    have hspec := h.sizes_spec table_id ht
    by_cases hc : countItems D st table_id = 0
    · exact hc
    · rw [if_neg hc, hsz] at hspec
      exact Option.noConfusion hspec
  have hempty : ∀ s, skillTrials D st table_id s = [] :=
    skillTrials_eq_nil_of_countItems_eq_zero hWF hc0
  have hmerge : ∀ s, skillTrials D A table_id s = D.trials_studied s item := by
    intro s
    rw [skillTrials_update_assign (D := D) hseatA holdt s, hempty s]
    simp [mergeAsc]
  have hnotmem : table_id ∉ st.extant_tables := by
    intro hc
    have := (h.extant_iff table_id).mp hc
    rw [hsz] at this
    simp at this
  constructor
  · -- sizes_spec
    intro t htz
    simp only [hsizesA]
    by_cases htt : t = table_id
    · subst htt
      rw [if_pos rfl]
      have hcnt := countItems_update_assign hseatA holdt hN
      rw [hcnt, hc0]
      simp
    · rw [if_neg htt]
      have hcnt := countItems_update_of_ne (D := D) hseatA
        (fun hc => htt hc.symm) (by rw [hseat]; exact Ne.symm htz)
      rw [hcnt]
      exact h.sizes_spec t htz
  · -- lookup_spec
    intro t s htz
    simp only [hlookA]
    by_cases htt : t = table_id
    · subst htt
      rw [if_pos rfl]
      by_cases hstud : (D.students_who_studied item).contains s
      · rw [if_pos hstud]
        have hmem : s ∈ D.students_who_studied item := List.elem_iff.mp hstud
        obtain ⟨hlt, htr, hcont⟩ := Dataset.mem_students_who_studied.mp hmem
        have hitem : item ∈ D.seqOf s := List.elem_iff.mp hcont
        have hits : D.trials_studied s item ≠ [] := Dataset.trials_studied_ne_nil hitem
        unfold lookupSpec
        rw [hmerge s]
        rw [if_pos ⟨htr, hits⟩]
      · rw [if_neg hstud]
        unfold lookupSpec
        rw [hmerge s]
        by_cases htr : D.train_students.contains s
        · by_cases hlt : s < D.num_students
          · have hni : ¬ (D.seqOf s).contains item = true := by
              intro hcont
              exact hstud (List.elem_iff.mpr
                (Dataset.mem_students_who_studied.mpr ⟨hlt, htr, hcont⟩))
            have hnil : D.trials_studied s item = [] :=
              Dataset.trials_studied_eq_nil (fun hm => hni (List.elem_iff.mpr hm))
            rw [if_neg (fun hc => hc.2 hnil)]
          · have hnil : D.trials_studied s item = [] := by
              unfold Dataset.trials_studied
              rw [Dataset.seqOf_eq_nil_of_ge hWF (by omega)]
              rfl
            rw [if_neg (fun hc => hc.2 hnil)]
        · rw [if_neg (fun hc => htr hc.1)]
    · rw [if_neg htt]
      rw [h.lookup_spec t s htz]
      have heq := skillTrials_update_of_ne (D := D) hseatA
        (fun hc => htt hc.symm) (by rw [hseat]; exact Ne.symm htz) s
      unfold lookupSpec
      rw [heq]
  · -- params_iff
    intro t
    simp only [hparamsA, hsizesA]
    by_cases htt : t = table_id
    · subst htt
      rw [if_pos rfl, if_pos rfl]
      simp
    · rw [if_neg htt, if_neg htt]
      exact h.params_iff t
  · -- extant_iff
    intro t
    simp only [hextA, hsizesA]
    rw [mem_insertSorted]
    by_cases htt : t = table_id
    · subst htt
      rw [if_pos rfl]
      simp
    · rw [if_neg htt]
      simp only [htt, false_or]
      exact h.extant_iff t
  · rw [hextA]; exact pairwise_insertSorted h.extant_sorted
  · rw [husedA, hextA, length_insertSorted_of_not_mem hnotmem, h.used_eq]
  · simp only [hsizesA]
    rw [if_neg (Ne.symm ht)]
    exact h.zero_sizes
  · intro s
    simp only [hlookA]
    rw [if_neg (Ne.symm ht)]
    exact h.zero_lookup s

/-- Branch-resolved form of the state component of `remove_item_from_table`. -/
theorem remove_item_from_table_fst (D : Dataset) (st : ChainState) (item table_id : Nat) :
    (remove_item_from_table D st item table_id).1 =
    if usub1 ((st.table_sizes table_id).getD 0) = 0 then
      { st with
          seating_arrangement :=
            fun i => if i = item then UNASSIGNED else st.seating_arrangement i,
          table_sizes := fun t => if t = table_id then none else st.table_sizes t,
          parameters := fun t => if t = table_id then none else st.parameters t,
          extant_tables := st.extant_tables.erase table_id,
          num_used_skills := usub1 st.num_used_skills,
          trial_lookup := fun t s => if t = table_id then none else st.trial_lookup t s }
    else
      { st with
          seating_arrangement :=
            fun i => if i = item then UNASSIGNED else st.seating_arrangement i,
          table_sizes := fun t =>
            if t = table_id then some (usub1 ((st.table_sizes table_id).getD 0))
            else st.table_sizes t,
          trial_lookup := fun t s =>
            if t = table_id then
              if (D.students_who_studied item).contains s then
                if ((st.trial_lookup table_id s).getD []).length -
                    (D.trials_studied s item).length = 0 then none
                else some (removeSeq ((st.trial_lookup table_id s).getD [])
                  (D.trials_studied s item))
              else st.trial_lookup t s
            else st.trial_lookup t s } := by
  unfold remove_item_from_table
  by_cases hz : usub1 ((st.table_sizes table_id).getD 0) = 0
  · rw [if_pos hz, if_pos hz]
  · rw [if_neg hz, if_neg hz]

/-- `remove_item_from_table`, called on an item seated at `table_id`,
preserves the invariant. -/
theorem inv0_remove {D : Dataset} {st : ChainState} (hWF : DatasetWF D)
    (h : Inv0 D st) {item table_id : Nat}
    (hseat : st.seating_arrangement item = table_id) (hN : item < D.num_items)
    (ht : table_id ≠ UNASSIGNED) :
    Inv0 D (remove_item_from_table D st item table_id).1 := by
  have hcpos : 0 < countItems D st table_id := countItems_pos hseat hN
  have hcle : countItems D st table_id ≤ D.num_items := countItems_le st table_id
  have hsz : st.table_sizes table_id = some (countItems D st table_id) := by
    have hspec := h.sizes_spec table_id ht
    rw [if_neg (by omega)] at hspec
    exact hspec
  obtain ⟨m, hm⟩ : ∃ m, countItems D st table_id = m + 1 :=
    ⟨countItems D st table_id - 1, by omega⟩
  have hnew : usub1 ((st.table_sizes table_id).getD 0) = m := by
    rw [hsz, hm]
    simp only [Option.getD_some]
    have hlt := hWF.items_lt
    exact usub1_succ (by omega)
  set R := (remove_item_from_table D st item table_id).1 with hR
  have hfst := remove_item_from_table_fst D st item table_id
  rw [hnew] at hfst
  have hseatR : R.seating_arrangement =
      fun i => if i = item then UNASSIGNED else st.seating_arrangement i := by
    rw [hR, hfst]
    by_cases hm0 : m = 0
    · rw [if_pos hm0]
    · rw [if_neg hm0]
  have hcntR : countItems D st table_id = countItems D R table_id + 1 :=
    countItems_update_remove hseatR hseat ht hN
  have hcntRm : countItems D R table_id = m := by omega
  have hcnt_ne : ∀ t, t ≠ table_id → t ≠ UNASSIGNED → countItems D R t = countItems D st t :=
    fun t htt htz => countItems_update_of_ne (D := D) hseatR
      (Ne.symm htz) (by rw [hseat]; exact fun hc => htt hc.symm)
  have hocc : ∀ t ∈ st.extant_tables, 0 < countItems D st t := by
    intro t htm
    have hsome := (h.extant_iff t).mp htm
    have htz : t ≠ UNASSIGNED := by
      intro hc
      rw [hc, h.zero_sizes] at hsome
      simp at hsome
    have := (h.sizes_eq_count htz hsome).2
    omega
  by_cases hm0 : m = 0
  · -- the table is deleted
    have hsizesR : R.table_sizes =
        fun t => if t = table_id then none else st.table_sizes t := by
      rw [hR, hfst, if_pos hm0]
    have hparamsR : R.parameters =
        fun t => if t = table_id then none else st.parameters t := by
      rw [hR, hfst, if_pos hm0]
    have hextR : R.extant_tables = st.extant_tables.erase table_id := by
      rw [hR, hfst, if_pos hm0]
    have husedR : R.num_used_skills = usub1 st.num_used_skills := by
      rw [hR, hfst, if_pos hm0]
    have hlookR : R.trial_lookup =
        fun t s => if t = table_id then none else st.trial_lookup t s := by
      rw [hR, hfst, if_pos hm0]
    have hcnt0 : countItems D R table_id = 0 := by omega
    have hnd : st.extant_tables.Nodup :=
      h.extant_sorted.imp (fun {a b} hab => Nat.ne_of_lt hab)
    have hmemext : table_id ∈ st.extant_tables := by
      apply (h.extant_iff table_id).mpr
      rw [hsz]; simp
    have hlenpos : 0 < st.extant_tables.length :=
      List.length_pos.mpr (fun hc => by rw [hc] at hmemext; simp at hmemext)
    have hlenle : st.extant_tables.length ≤ D.num_items :=
      extant_length_le h.extant_sorted hocc
    constructor
    · intro t htz
      simp only [hsizesR]
      by_cases htt : t = table_id
      · subst htt
        rw [if_pos rfl, hcnt0]
        simp
      · rw [if_neg htt, hcnt_ne t htt htz]
        exact h.sizes_spec t htz
    · intro t s htz
      simp only [hlookR]
      by_cases htt : t = table_id
      · subst htt
        rw [if_pos rfl]
        unfold lookupSpec
        rw [if_neg (fun hc =>
          hc.2 (skillTrials_eq_nil_of_countItems_eq_zero hWF hcnt0 s))]
      · rw [if_neg htt, h.lookup_spec t s htz]
        unfold lookupSpec
        rw [skillTrials_update_of_ne (D := D) hseatR (Ne.symm htz)
          (by rw [hseat]; exact fun hc => htt hc.symm) s]
    · intro t
      simp only [hparamsR, hsizesR]
      by_cases htt : t = table_id
      · subst htt; rw [if_pos rfl, if_pos rfl]; rfl
      · rw [if_neg htt, if_neg htt]; exact h.params_iff t
    · intro t
      simp only [hextR, hsizesR]
      rw [hnd.mem_erase_iff]
      by_cases htt : t = table_id
      · subst htt; rw [if_pos rfl]; simp
      · rw [if_neg htt]
        simp only [ne_eq, htt, not_false_iff, true_and]
        exact h.extant_iff t
    · rw [hextR]
      exact h.extant_sorted.sublist (List.erase_sublist table_id st.extant_tables)
    · rw [husedR, hextR, h.used_eq, List.length_erase_of_mem hmemext]
      obtain ⟨k, hk⟩ : ∃ k, st.extant_tables.length = k + 1 :=
        ⟨st.extant_tables.length - 1, by omega⟩
      rw [hk]
      rw [usub1_succ (by have := hWF.items_lt; omega)]
      omega
    · simp only [hsizesR]
      rw [if_neg (Ne.symm ht)]
      exact h.zero_sizes
    · intro s
      simp only [hlookR]
      rw [if_neg (Ne.symm ht)]
      exact h.zero_lookup s
  · -- the table survives
    have hsizesR : R.table_sizes =
        fun t => if t = table_id then some m else st.table_sizes t := by
      rw [hR, hfst, if_neg hm0]
    have hparamsR : R.parameters = st.parameters := by
      rw [hR, hfst, if_neg hm0]
    have hextR : R.extant_tables = st.extant_tables := by
      rw [hR, hfst, if_neg hm0]
    have husedR : R.num_used_skills = st.num_used_skills := by
      rw [hR, hfst, if_neg hm0]
    have hlookR : R.trial_lookup = fun t s =>
        if t = table_id then
          if (D.students_who_studied item).contains s then
            if ((st.trial_lookup table_id s).getD []).length -
                (D.trials_studied s item).length = 0 then none
            else some (removeSeq ((st.trial_lookup table_id s).getD [])
              (D.trials_studied s item))
          else st.trial_lookup t s
        else st.trial_lookup t s := by
      rw [hR, hfst, if_neg hm0]
    constructor
    · intro t htz
      simp only [hsizesR]
      by_cases htt : t = table_id
      · subst htt
        rw [if_pos rfl, hcntRm]
        rw [if_neg hm0]
      · rw [if_neg htt, hcnt_ne t htt htz]
        exact h.sizes_spec t htz
    · intro t s htz
      simp only [hlookR]
      by_cases htt : t = table_id
      · subst htt
        rw [if_pos rfl]
        have hfilt := skillTrials_update_remove (D := D) hseatR hseat ht s
        by_cases hstud : (D.students_who_studied item).contains s
        · rw [if_pos hstud]
          have hmem : s ∈ D.students_who_studied item := List.elem_iff.mp hstud
          obtain ⟨hlt, htr, hcont⟩ := Dataset.mem_students_who_studied.mp hmem
          obtain ⟨hlook, hne⟩ := h.lookup_of_studied ht hseat hmem
          have hsub : List.Sublist (D.trials_studied s item) (skillTrials D st t s) :=
            trials_studied_sublist_skillTrials hseat
          have hgetD : (st.trial_lookup t s).getD [] = skillTrials D st t s := by
            rw [hlook]; rfl
          have hremfilt : removeSeq (skillTrials D st t s) (D.trials_studied s item) =
              (skillTrials D st t s).filter
                (fun x => decide (x ∉ D.trials_studied s item)) :=
            removeSeq_eq_filter hsub (skillTrials_pairwise D st t s)
          have hremlen : (removeSeq (skillTrials D st t s)
              (D.trials_studied s item)).length =
              (skillTrials D st t s).length - (D.trials_studied s item).length :=
            removeSeq_length hsub
          rw [hgetD]
          by_cases hzero : (skillTrials D st t s).length -
              (D.trials_studied s item).length = 0
          · rw [if_pos hzero]
            have hRnil : skillTrials D R t s = [] := by
              rw [hfilt, ← hremfilt]
              apply List.eq_nil_of_length_eq_zero
              omega
            unfold lookupSpec
            rw [if_neg (fun hc => hc.2 hRnil)]
          · rw [if_neg hzero]
            have hRne : skillTrials D R t s ≠ [] := by
              rw [hfilt, ← hremfilt]
              intro hc
              rw [hc] at hremlen
              simp only [List.length_nil] at hremlen
              omega
            unfold lookupSpec
            rw [if_pos ⟨htr, hRne⟩, hfilt, ← hremfilt]
        · rw [if_neg hstud, h.lookup_spec t s ht]
          unfold lookupSpec
          by_cases htr : D.train_students.contains s
          · by_cases hlt : s < D.num_students
            · have hni : ¬ (D.seqOf s).contains item = true := by
                intro hcont
                exact hstud (List.elem_iff.mpr
                  (Dataset.mem_students_who_studied.mpr ⟨hlt, htr, hcont⟩))
              have hnil : D.trials_studied s item = [] :=
                Dataset.trials_studied_eq_nil (fun hmm => hni (List.elem_iff.mpr hmm))
              have : skillTrials D R t s = skillTrials D st t s := by
                rw [hfilt, hnil]
                apply List.filter_eq_self.mpr
                intro x _
                simp
              rw [this]
            · have h1 := skillTrials_eq_nil_of_ge hWF st (t := t) (s := s) (by omega)
              have h2 := skillTrials_eq_nil_of_ge hWF R (t := t) (s := s) (by omega)
              rw [h1, h2]
          · rw [if_neg (fun hc => htr hc.1), if_neg (fun hc => htr hc.1)]
      · rw [if_neg htt, h.lookup_spec t s htz]
        unfold lookupSpec
        rw [skillTrials_update_of_ne (D := D) hseatR (Ne.symm htz)
          (by rw [hseat]; exact fun hc => htt hc.symm) s]
    · intro t
      simp only [hparamsR, hsizesR]
      by_cases htt : t = table_id
      · subst htt
        rw [if_pos rfl]
        simp only [Option.isSome_some, iff_true]
        rw [h.params_iff, hsz]
        simp
      · rw [if_neg htt]
        exact h.params_iff t
    · intro t
      simp only [hextR, hsizesR]
      by_cases htt : t = table_id
      · subst htt
        rw [if_pos rfl]
        simp only [Option.isSome_some, iff_true]
        apply (h.extant_iff t).mpr
        rw [hsz]; simp
      · rw [if_neg htt]
        exact h.extant_iff t
    · rw [hextR]; exact h.extant_sorted
    · rw [husedR, hextR]; exact h.used_eq
    · simp only [hsizesR]
      rw [if_neg (Ne.symm ht)]
      exact h.zero_sizes
    · intro s
      simp only [hlookR]
      rw [if_neg (Ne.symm ht)]
      exact h.zero_lookup s

/-- Overwriting an existing table's parameter record preserves the
invariant. -/
theorem inv0_set_params {D : Dataset} {st : ChainState} (h : Inv0 D st)
    {table_id : Nat} (p : BktParams) (hp : (st.parameters table_id).isSome) :
    Inv0 D (set_table_params st table_id p) := by
  refine ⟨h.sizes_spec, h.lookup_spec, ?_, h.extant_iff, h.extant_sorted,
    h.used_eq, h.zero_sizes, h.zero_lookup⟩
  intro t
  show (if t = table_id then some p else st.parameters t).isSome ↔ _
  by_cases htt : t = table_id
  · subst htt
    rw [if_pos rfl]
    simp only [Option.isSome_some, true_iff]
    exact (h.params_iff t).mp hp
  · rw [if_neg htt]
    exact h.params_iff t

theorem le_foldr_max {l : List Nat} {x : Nat} (h : x ∈ l) : x ≤ l.foldr max 0 := by
  induction l with
  | nil => simp at h
  | cons a as ih =>
      rcases List.mem_cons.mp h with h1 | h1
      · subst h1; exact le_max_left _ _
      · exact le_trans (ih h1) (le_max_right _ _)

theorem labelOf_le_max (D : Dataset) (i : Nat) :
    D.labelOf i ≤ D.provided_skill_assignments.foldr max 0 := by
  unfold Dataset.labelOf
  by_cases hi : i < D.provided_skill_assignments.length
  · apply le_foldr_max
    rw [List.getD_eq_getElem _ _ hi]
    exact List.getElem_mem hi
  · rw [List.getD_eq_default _ _ (by omega)]
    exact Nat.zero_le _

theorem inv0_empty (D : Dataset) : Inv0 D emptyState := by
  have hcount : ∀ t, t ≠ UNASSIGNED → countItems D emptyState t = 0 := by
    intro t htz
    apply List.countP_eq_zero.mpr
    intro i _
    simp [emptyState, Ne.symm htz]
  have htrials : ∀ t s, t ≠ UNASSIGNED → skillTrials D emptyState t s = [] := by
    intro t s htz
    apply List.filter_eq_nil_iff.mpr
    intro j _
    simp [emptyState, Ne.symm htz]
  constructor
  · intro t htz
    rw [hcount t htz, if_pos rfl]
    rfl
  · intro t s htz
    unfold lookupSpec
    rw [if_neg (fun hc => hc.2 (htrials t s htz))]
    rfl
  · intro t; simp [emptyState]
  · intro t; simp [emptyState]
  · simp [emptyState]
  · simp [emptyState]
  · rfl
  · intro s; rfl

/-- Invariant and bookkeeping facts for the constructor's initial seating
loop, after the first `m` items have been seated. -/
theorem initLoop_inv {D : Dataset} (hWF : DatasetWF D) (π : Nat → BktParams)
    (m : Nat) (hm : m ≤ D.num_items) :
    let st := (List.range m).foldl (initSeatStep D π) emptyState
    Inv0 D st ∧
      (∀ i, st.seating_arrangement i = if i < m then 1 + D.labelOf i else UNASSIGNED) ∧
      (∀ t, (st.table_sizes t).isSome ↔ ∃ i < m, t = 1 + D.labelOf i) ∧
      st.tables_ever_instantiated = UNASSIGNED + 1 := by
  induction m with
  | zero =>
      refine ⟨inv0_empty D, ?_, ?_, rfl⟩
      · intro i; simp [emptyState]
      · intro t; simp [emptyState]
  | succ n ih =>
      obtain ⟨hInv, hseating, hsome, hctr⟩ := ih (by omega)
      set st := (List.range n).foldl (initSeatStep D π) emptyState with hst
      have hfold : (List.range (n + 1)).foldl (initSeatStep D π) emptyState =
          initSeatStep D π st n := by
        rw [List.range_succ, List.foldl_append]
        rfl
      intro st'
      have hst' : st' = initSeatStep D π st n := hfold
      have hseatn : st.seating_arrangement n = UNASSIGNED := by
        rw [hseating n, if_neg (by omega)]
      have htid : 1 + D.labelOf n ≠ UNASSIGNED := by simp [UNASSIGNED]
      have hN : n < D.num_items := by omega
      by_cases hnewt : ((List.range n).map D.labelOf).contains (D.labelOf n)
      · -- table already exists: assign to existing table
        have hex : ∃ i < n, D.labelOf i = D.labelOf n := by
          obtain ⟨x, hx, hxeq⟩ := List.mem_map.mp (List.elem_iff.mp hnewt)
          exact ⟨x, List.mem_range.mp hx, hxeq⟩
        have hsz : (st.table_sizes (1 + D.labelOf n)).isSome := by
          apply (hsome _).mpr
          obtain ⟨i, hi, hieq⟩ := hex
          exact ⟨i, hi, by rw [hieq]⟩
        have hstep : st' = assign_item_to_table D st n (1 + D.labelOf n) false (π n) := by
          rw [hst']
          unfold initSeatStep
          rw [hnewt]
          rfl
        refine ⟨?_, ?_, ?_, ?_⟩
        · rw [hstep]
          exact inv0_assign_old hWF hInv (π n) hseatn hN htid hsz
        · intro i
          rw [hstep]
          show (if i = n then 1 + D.labelOf n else st.seating_arrangement i) = _
          by_cases hin : i = n
          · subst hin; rw [if_pos rfl, if_pos (by omega)]
          · rw [if_neg hin, hseating i]
            by_cases hilt : i < n
            · rw [if_pos hilt, if_pos (by omega)]
            · rw [if_neg hilt, if_neg (by omega)]
        · intro t
          rw [hstep]
          show (if t = 1 + D.labelOf n then
              some ((st.table_sizes (1 + D.labelOf n)).getD 0 + 1)
            else st.table_sizes t).isSome ↔ _
          by_cases htt : t = 1 + D.labelOf n
          · subst htt
            rw [if_pos rfl]
            simp only [Option.isSome_some, true_iff]
            exact ⟨n, by omega, rfl⟩
          · rw [if_neg htt, hsome t]
            constructor
            · rintro ⟨i, hi, rfl⟩
              exact ⟨i, by omega, rfl⟩
            · rintro ⟨i, hi, rfl⟩
              refine ⟨i, ?_, rfl⟩
              rcases Nat.lt_succ_iff_lt_or_eq.mp hi with hi' | hi'
              · exact hi'
              · subst hi'; exact absurd rfl htt
        · rw [hstep]
          show st.tables_ever_instantiated = _
          exact hctr
      · -- fresh table
        have hnex : ¬ ∃ i < n, D.labelOf i = D.labelOf n := by
          rintro ⟨i, hi, hieq⟩
          exact hnewt (List.elem_iff.mpr
            (List.mem_map.mpr ⟨i, List.mem_range.mpr hi, hieq⟩))
        have hsz : st.table_sizes (1 + D.labelOf n) = none := by
          have := hsome (1 + D.labelOf n)
          rw [Option.isSome_iff_exists] at this
          by_cases hc : st.table_sizes (1 + D.labelOf n) = none
          · exact hc
          · obtain ⟨v, hv⟩ := Option.ne_none_iff_exists'.mp hc
            have := this.mp ⟨v, hv⟩
            obtain ⟨i, hi, hieq⟩ := this
            exact absurd ⟨i, hi, by omega⟩ hnex
        have hstep : st' = assign_item_to_table D st n (1 + D.labelOf n) true (π n) := by
          rw [hst']
          unfold initSeatStep
          rw [Bool.not_eq_true] at hnewt
          rw [hnewt]
          rfl
        refine ⟨?_, ?_, ?_, ?_⟩
        · rw [hstep]
          exact inv0_assign_new hWF hInv (π n) hseatn hN htid hsz
        · intro i
          rw [hstep]
          show (if i = n then 1 + D.labelOf n else st.seating_arrangement i) = _
          by_cases hin : i = n
          · subst hin; rw [if_pos rfl, if_pos (by omega)]
          · rw [if_neg hin, hseating i]
            by_cases hilt : i < n
            · rw [if_pos hilt, if_pos (by omega)]
            · rw [if_neg hilt, if_neg (by omega)]
        · intro t
          rw [hstep]
          show (if t = 1 + D.labelOf n then some 1 else st.table_sizes t).isSome ↔ _
          by_cases htt : t = 1 + D.labelOf n
          · subst htt
            rw [if_pos rfl]
            simp only [Option.isSome_some, true_iff]
            exact ⟨n, by omega, rfl⟩
          · rw [if_neg htt, hsome t]
            constructor
            · rintro ⟨i, hi, rfl⟩
              exact ⟨i, by omega, rfl⟩
            · rintro ⟨i, hi, rfl⟩
              refine ⟨i, ?_, rfl⟩
              rcases Nat.lt_succ_iff_lt_or_eq.mp hi with hi' | hi'
              · exact hi'
              · subst hi'; exact absurd rfl htt
        · rw [hstep]
          show st.tables_ever_instantiated = _
          exact hctr

/-- The constructor's initial state satisfies the full invariant. -/
theorem inv_initState {D : Dataset} (hWF : DatasetWF D) (π : Nat → BktParams) :
    Inv D (initState D π) := by
  obtain ⟨hInv, hseating, hsome, hctr⟩ :=
    initLoop_inv hWF π D.num_items (le_refl _)
  set stl := (List.range D.num_items).foldl (initSeatStep D π) emptyState with hstl
  have hIS : initState D π =
      { stl with tables_ever_instantiated :=
          stl.tables_ever_instantiated + D.num_expert_provided_skills + 1 } := rfl
  constructor
  · rw [hIS]
    exact ⟨hInv.sizes_spec, hInv.lookup_spec, hInv.params_iff, hInv.extant_iff,
      hInv.extant_sorted, hInv.used_eq, hInv.zero_sizes, hInv.zero_lookup⟩
  · intro t hts
    rw [hIS] at hts ⊢
    show t < stl.tables_ever_instantiated + D.num_expert_provided_skills + 1
    have := (hsome t).mp hts
    obtain ⟨i, _, rfl⟩ := this
    have := labelOf_le_max D i
    unfold Dataset.num_expert_provided_skills
    omega
  · rw [hIS]
    show 1 ≤ stl.tables_ever_instantiated + D.num_expert_provided_skills + 1
    omega

theorem remove_sizes_isSome {D : Dataset} {st : ChainState} {item table_id t : Nat}
    (h : (((remove_item_from_table D st item table_id).1).table_sizes t).isSome) :
    t = table_id ∨ (st.table_sizes t).isSome := by
  by_cases htt : t = table_id
  · exact Or.inl htt
  · right
    rw [remove_item_from_table_fst] at h
    by_cases hz : usub1 ((st.table_sizes table_id).getD 0) = 0
    · rw [if_pos hz] at h
      have h' : (if t = table_id then none else st.table_sizes t).isSome = true := h
      rw [if_neg htt] at h'
      exact h'
    · rw [if_neg hz] at h
      have h' : (if t = table_id then
          some (usub1 ((st.table_sizes table_id).getD 0))
        else st.table_sizes t).isSome = true := h
      rw [if_neg htt] at h'
      exact h'

theorem remove_ctr {D : Dataset} (st : ChainState) (item table_id : Nat) :
    ((remove_item_from_table D st item table_id).1).tables_ever_instantiated =
      st.tables_ever_instantiated := by
  rw [remove_item_from_table_fst]
  by_cases hz : usub1 ((st.table_sizes table_id).getD 0) = 0
  · rw [if_pos hz]
  · rw [if_neg hz]

/-- Every reachable chain state satisfies the invariant. -/
theorem inv_of_reachable {D : Dataset} {st : ChainState} (hWF : DatasetWF D)
    (h : Reachable D st) : Inv D st := by
  induction h with
  | init π => exact inv_initState hWF π
  | assign_old st item table_id p _ hseat hN ht hsz ih =>
      refine ⟨inv0_assign_old hWF ih.toInv0 p hseat hN ht hsz, ?_, ?_⟩
      · intro t hts
        have hsizes : (assign_item_to_table D st item table_id false p).table_sizes =
            fun t => if t = table_id then some ((st.table_sizes table_id).getD 0 + 1)
              else st.table_sizes t := by
          simp [assign_item_to_table]
        have hctr : (assign_item_to_table D st item table_id false p).tables_ever_instantiated =
            st.tables_ever_instantiated := by
          simp [assign_item_to_table]
        rw [hctr]
        rw [hsizes] at hts
        by_cases htt : t = table_id
        · subst htt; exact ih.dom_lt t hsz
        · simp only [htt, if_false] at hts
          exact ih.dom_lt t hts
      · have hctr : (assign_item_to_table D st item table_id false p).tables_ever_instantiated =
            st.tables_ever_instantiated := by
          simp [assign_item_to_table]
        rw [hctr]
        exact ih.one_le_ctr
  | assign_new st item p _ hseat hN ih =>
      have hctrne : st.tables_ever_instantiated ≠ UNASSIGNED := by
        have := ih.one_le_ctr
        simp only [UNASSIGNED]
        omega
      have hszn : st.table_sizes st.tables_ever_instantiated = none := by
        by_cases hc : (st.table_sizes st.tables_ever_instantiated).isSome
        · have := ih.dom_lt _ hc
          omega
        · exact Option.not_isSome_iff_eq_none.mp hc
      set A := assign_item_to_table D st item st.tables_ever_instantiated true p with hA
      have hInv0 : Inv0 D A := inv0_assign_new hWF ih.toInv0 p hseat hN hctrne hszn
      have hsizesA : A.table_sizes =
          fun t => if t = st.tables_ever_instantiated then some 1 else st.table_sizes t := by
        rw [hA]; simp [assign_item_to_table]
      have hctrA : A.tables_ever_instantiated = st.tables_ever_instantiated := by
        rw [hA]; simp [assign_item_to_table]
      show Inv D { A with tables_ever_instantiated := A.tables_ever_instantiated + 1 }
      refine ⟨⟨hInv0.sizes_spec, hInv0.lookup_spec, hInv0.params_iff, hInv0.extant_iff,
        hInv0.extant_sorted, hInv0.used_eq, hInv0.zero_sizes, hInv0.zero_lookup⟩, ?_, ?_⟩
      · intro t hts
        show t < A.tables_ever_instantiated + 1
        have hts' : (A.table_sizes t).isSome := hts
        rw [hsizesA] at hts'
        rw [hctrA]
        by_cases htt : t = st.tables_ever_instantiated
        · omega
        · simp only [htt, if_false] at hts'
          have := ih.dom_lt t hts'
          omega
      · show 1 ≤ A.tables_ever_instantiated + 1
        omega
  | remove st item table_id _ hseat hN ht ih =>
      refine ⟨inv0_remove hWF ih.toInv0 hseat hN ht, ?_, ?_⟩
      · intro t hts
        rw [remove_ctr]
        rcases remove_sizes_isSome hts with h1 | h1
        · subst h1
          apply ih.dom_lt
          have hcpos : 0 < countItems D st t := countItems_pos hseat hN
          have hspec := ih.sizes_spec t ht
          rw [if_neg (by omega)] at hspec
          rw [hspec]
          simp
        · exact ih.dom_lt t h1
      · rw [remove_ctr]
        exact ih.one_le_ctr
  | set_params st table_id p _ hp ih =>
      exact ⟨inv0_set_params ih.toInv0 p hp, ih.dom_lt, ih.one_le_ctr⟩

theorem assign_false_seating (D : Dataset) (st : ChainState) (item table_id : Nat)
    (p : BktParams) :
    (assign_item_to_table D st item table_id false p).seating_arrangement =
      fun i => if i = item then table_id else st.seating_arrangement i := by
  simp [assign_item_to_table]

theorem assign_false_sizes (D : Dataset) (st : ChainState) (item table_id : Nat)
    (p : BktParams) :
    (assign_item_to_table D st item table_id false p).table_sizes =
      fun t => if t = table_id then some ((st.table_sizes table_id).getD 0 + 1)
        else st.table_sizes t := by
  simp [assign_item_to_table]

theorem assign_true_seating (D : Dataset) (st : ChainState) (item table_id : Nat)
    (p : BktParams) :
    (assign_item_to_table D st item table_id true p).seating_arrangement =
      fun i => if i = item then table_id else st.seating_arrangement i := by
  simp [assign_item_to_table]

theorem assign_true_params (D : Dataset) (st : ChainState) (item table_id : Nat)
    (p : BktParams) :
    (assign_item_to_table D st item table_id true p).parameters =
      fun t => if t = table_id then some p else st.parameters t := by
  simp [assign_item_to_table]

theorem remove_seating (D : Dataset) (st : ChainState) (item table_id : Nat) :
    ((remove_item_from_table D st item table_id).1).seating_arrangement =
      fun i => if i = item then UNASSIGNED else st.seating_arrangement i := by
  rw [remove_item_from_table_fst]
  by_cases hz : usub1 ((st.table_sizes table_id).getD 0) = 0
  · rw [if_pos hz]
  · rw [if_neg hz]

/-- Since `item` is not seated at `t`, the number of items seated at `t` is
strictly below `num_items`. -/
theorem countItems_lt_of_not_seated {D : Dataset} {st : ChainState} {item t : Nat}
    (hne : st.seating_arrangement item ≠ t) (hN : item < D.num_items) :
    countItems D st t < D.num_items := by
  unfold countItems
  have hsplit := List.length_eq_countP_add_countP
    (l := List.range D.num_items) (fun i => st.seating_arrangement i == t)
  have hpos : 0 < (List.range D.num_items).countP
      (fun i => ¬(st.seating_arrangement i == t)) := by
    apply List.countP_pos_iff.mpr
    exact ⟨item, List.mem_range.mpr hN, by simpa using hne⟩
  rw [List.length_range] at hsplit
  omega

/-- The paired assign/remove used by `gibbs_resample_skill` to probe a table's
likelihood keeps the state reachable and restores the item's unassignment and
every table size. -/
theorem gibbs_pair_reachable {D : Dataset} (hWF : DatasetWF D) {acc : ChainState}
    {item t : Nat} (p : BktParams) (hre : Reachable D acc)
    (hseat : acc.seating_arrangement item = UNASSIGNED) (hN : item < D.num_items)
    (hsz : (acc.table_sizes t).isSome) :
    Reachable D
        (remove_item_from_table D (assign_item_to_table D acc item t false p) item t).1 ∧
      ((remove_item_from_table D (assign_item_to_table D acc item t false p)
          item t).1).seating_arrangement item = UNASSIGNED ∧
      ((remove_item_from_table D (assign_item_to_table D acc item t false p)
          item t).1).table_sizes = acc.table_sizes := by
  have hInv := inv_of_reachable hWF hre
  have ht : t ≠ UNASSIGNED := by
    intro hc
    rw [hc, hInv.zero_sizes] at hsz
    simp at hsz
  obtain ⟨hszeq, hc0⟩ := hInv.sizes_eq_count ht hsz
  have hlt : countItems D acc t < D.num_items :=
    countItems_lt_of_not_seated (by rw [hseat]; exact Ne.symm ht) hN
  set A1 := assign_item_to_table D acc item t false p with hA1
  have hreA1 : Reachable D A1 := Reachable.assign_old acc item t p hre hseat hN ht hsz
  have hseatA1 : A1.seating_arrangement item = t := by
    rw [hA1, assign_false_seating]
    simp
  have hsizesA1 : A1.table_sizes = fun t' =>
      if t' = t then some (countItems D acc t + 1) else acc.table_sizes t' := by
    rw [hA1, assign_false_sizes, hszeq]
    rfl
  have hgetD : (A1.table_sizes t).getD 0 = countItems D acc t + 1 := by
    rw [hsizesA1]
    simp
  have husub : usub1 ((A1.table_sizes t).getD 0) = countItems D acc t := by
    rw [hgetD]
    exact usub1_succ (by have := hWF.items_lt; omega)
  refine ⟨Reachable.remove A1 item t hreA1 hseatA1 hN ht, ?_, ?_⟩
  · rw [remove_seating]
    simp
  · rw [remove_item_from_table_fst, husub, if_neg hc0]
    funext t'
    show (if t' = t then some (countItems D acc t) else A1.table_sizes t') = _
    by_cases htt : t' = t
    · subst htt
      rw [if_pos rfl, hszeq]
    · rw [if_neg htt, hsizesA1]
      show (if t' = t then _ else acc.table_sizes t') = _
      rw [if_neg htt]

/-- The likelihood-probing loop of `gibbs_resample_skill` keeps the state
reachable and restores the item's unassignment and every table size. -/
theorem gibbs_fold_reachable {D : Dataset} (hWF : DatasetWF D) {item : Nat}
    (p : BktParams) (hN : item < D.num_items) :
    ∀ (keys : List Nat) (st1 : ChainState), Reachable D st1 →
      st1.seating_arrangement item = UNASSIGNED →
      (∀ t ∈ keys, (st1.table_sizes t).isSome) →
      Reachable D (keys.foldl (fun acc t =>
          (remove_item_from_table D (assign_item_to_table D acc item t false p)
            item t).1) st1) ∧
        (keys.foldl (fun acc t =>
          (remove_item_from_table D (assign_item_to_table D acc item t false p)
            item t).1) st1).seating_arrangement item = UNASSIGNED ∧
        (keys.foldl (fun acc t =>
          (remove_item_from_table D (assign_item_to_table D acc item t false p)
            item t).1) st1).table_sizes = st1.table_sizes := by
  intro keys
  induction keys with
  | nil =>
      intro st1 hre hseat _
      exact ⟨hre, hseat, rfl⟩
  | cons t ts ih =>
      intro st1 hre hseat hsome
      obtain ⟨hre2, hseat2, hsizes2⟩ :=
        gibbs_pair_reachable hWF p hre hseat hN (hsome t (by simp))
      simp only [List.foldl_cons]
      obtain ⟨hre3, hseat3, hsizes3⟩ := ih _ hre2 hseat2
        (by intro t' ht'; rw [hsizes2]; exact hsome t' (by simp [ht']))
      exact ⟨hre3, hseat3, by rw [hsizes3, hsizes2]⟩

section

attribute [local irreducible] usub1

/-- The full state effect of `gibbs_resample_skill` on a reachable state is
reachable. -/
theorem reachable_gibbs {D : Dataset} {st : ChainState} {item : Nat}
    (hWF : DatasetWF D) (hre : Reachable D st) (hN : item < D.num_items)
    (hseated : st.seating_arrangement item ≠ UNASSIGNED)
    (drawn_event : Nat) (pool_params fresh_params scratch_params : BktParams) :
    Reachable D (gibbs_resample_skill D st item drawn_event pool_params
      fresh_params scratch_params) := by
  unfold gibbs_resample_skill
  lift_lets
  extract_lets cur st1 keys st2 stNew
  have hcur : cur = st.seating_arrangement item := rfl
  have hst1 : st1 = (remove_item_from_table D st item cur).1 := rfl
  have hkeys : keys = st1.extant_tables := rfl
  have hst2 : st2 = keys.foldl (fun acc t =>
      (remove_item_from_table D (assign_item_to_table D acc item t false scratch_params)
        item t).1) st1 := rfl
  have hre1 : Reachable D st1 := by
    rw [hst1]
    exact Reachable.remove st item cur hre hcur.symm hN (fun hc => hseated (hcur ▸ hc))
  have hseat1 : st1.seating_arrangement item = UNASSIGNED := by
    rw [hst1, remove_seating]
    simp
  have hInv1 := inv_of_reachable hWF hre1
  have hsome1 : ∀ t ∈ keys, (st1.table_sizes t).isSome := by
    rw [hkeys]
    exact fun t ht => (hInv1.extant_iff t).mp ht
  obtain ⟨hre2, hseat2, hsizes2⟩ :=
    gibbs_fold_reachable hWF scratch_params hN keys st1 hre1 hseat1 hsome1
  rw [← hst2] at hre2 hseat2 hsizes2
  have hstNew : stNew = assign_item_to_table D st2 item st2.tables_ever_instantiated
      true fresh_params := rfl
  by_cases hdraw : keys.length ≤ drawn_event
  · rw [if_pos hdraw]
    have hreNew : Reachable D
        { stNew with tables_ever_instantiated := stNew.tables_ever_instantiated + 1 } :=
      Reachable.assign_new st2 item fresh_params hre2 hseat2 hN
    apply Reachable.set_params _ _ _ hreNew
    have hseatNew : stNew.seating_arrangement item = st2.tables_ever_instantiated := by
      rw [hstNew, assign_true_seating]
      simp
    rw [hseatNew]
    show (stNew.parameters st2.tables_ever_instantiated).isSome
    rw [hstNew, assign_true_params]
    simp
  · rw [if_neg hdraw]
    have hmem : keys.getD drawn_event 0 ∈ keys := by
      rw [List.getD_eq_getElem _ _ (by omega)]
      exact List.getElem_mem (by omega)
    have hsz2 : (st2.table_sizes (keys.getD drawn_event 0)).isSome := by
      rw [hsizes2]
      exact hsome1 _ hmem
    have ht2 : keys.getD drawn_event 0 ≠ UNASSIGNED := by
      intro hc
      have := hsome1 _ hmem
      rw [hc, hInv1.zero_sizes] at this
      simp at this
    exact Reachable.assign_old st2 item _ scratch_params hre2 hseat2 hN ht2 hsz2

end

theorem skillTrials_ne_nil_iff {D : Dataset} {st : ChainState} {t s : Nat} :
    skillTrials D st t s ≠ [] ↔
      ∃ j, j < (D.seqOf s).length ∧ st.seating_arrangement (D.itemAt s j) = t := by
  constructor
  · intro hne
    obtain ⟨j, hj⟩ := List.exists_mem_of_ne_nil _ hne
    have := List.mem_filter.mp hj
    exact ⟨j, List.mem_range.mp this.1, by simpa using this.2⟩
  · rintro ⟨j, hj, hseat⟩
    intro hc
    have : j ∈ skillTrials D st t s :=
      List.mem_filter.mpr ⟨List.mem_range.mpr hj, by simpa using hseat⟩
    rw [hc] at this
    simp at this

/-- C1: in every reachable chain state, the active-skill counter
`num_used_skills` equals the number of tables with positive size, every item's
seat is either the `UNASSIGNED` sentinel or a table of positive size, and every
`trial_lookup` trial-index list is strictly increasing (sorted ascending with
no duplicates). -/
theorem wcrp_chain_state_invariants {D : Dataset} {st : ChainState}
    (hWF : DatasetWF D) (hre : Reachable D st) :
    st.num_used_skills = {t : Nat | ∃ n, st.table_sizes t = some n ∧ 0 < n}.ncard ∧
    (∀ item, item < D.num_items → st.seating_arrangement item = UNASSIGNED ∨
      ∃ n, st.table_sizes (st.seating_arrangement item) = some n ∧ 0 < n) ∧
    (∀ t s l, st.trial_lookup t s = some l → l.Pairwise (· < ·)) := by
  have hInv := inv_of_reachable hWF hre
  refine ⟨?_, ?_, ?_⟩
  · have hset : {t : Nat | ∃ n, st.table_sizes t = some n ∧ 0 < n} =
        {t : Nat | t ∈ st.extant_tables} := by
      ext t
      simp only [Set.mem_setOf_eq]
      constructor
      · rintro ⟨n, hn, _⟩
        exact (hInv.extant_iff t).mpr (by rw [hn]; simp)
      · intro htm
        have hsome := (hInv.extant_iff t).mp htm
        have htz : t ≠ UNASSIGNED := by
          intro hc
          rw [hc, hInv.zero_sizes] at hsome
          simp at hsome
        obtain ⟨heq, hne⟩ := hInv.sizes_eq_count htz hsome
        exact ⟨countItems D st t, heq, by omega⟩
    have hnd : st.extant_tables.Nodup :=
      hInv.extant_sorted.imp (fun {a b} hab => Nat.ne_of_lt hab)
    have hfin : {t : Nat | t ∈ st.extant_tables} = ↑st.extant_tables.toFinset := by
      ext t
      simp
    rw [hset, hfin, Set.ncard_coe_Finset, List.toFinset_card_of_nodup hnd]
    exact hInv.used_eq
  · intro item hitem
    by_cases hu : st.seating_arrangement item = UNASSIGNED
    · exact Or.inl hu
    · right
      have hcpos : 0 < countItems D st (st.seating_arrangement item) :=
        countItems_pos rfl hitem
      have hspec := hInv.sizes_spec (st.seating_arrangement item) hu
      rw [if_neg (by omega)] at hspec
      exact ⟨countItems D st (st.seating_arrangement item), hspec, hcpos⟩
  · intro t s l hl
    by_cases htz : t = UNASSIGNED
    · rw [htz, hInv.zero_lookup s] at hl
      exact Option.noConfusion hl
    · rw [hInv.lookup_spec t s htz] at hl
      unfold lookupSpec at hl
      by_cases hc : D.train_students.contains s ∧ skillTrials D st t s ≠ []
      · rw [if_pos hc] at hl
        injection hl with hl
        rw [← hl]
        exact skillTrials_pairwise D st t s
      · rw [if_neg hc] at hl
        exact Option.noConfusion hl

/-- C10: in every reachable chain state, `trial_lookup` has an entry for a
(table, student) pair iff the student is a training student with at least one
trial on an item currently seated at the table, and every entry is a
non-empty list. -/
theorem trial_lookup_entries_spec {D : Dataset} {st : ChainState}
    (hWF : DatasetWF D) (hre : Reachable D st) :
    ∀ t s, t ≠ UNASSIGNED →
      ((∃ l, st.trial_lookup t s = some l) ↔
        s ∈ D.train_students ∧
          ∃ j, j < (D.seqOf s).length ∧ st.seating_arrangement (D.itemAt s j) = t) ∧
      (∀ l, st.trial_lookup t s = some l → l ≠ []) := by
  have hInv := inv_of_reachable hWF hre
  intro t s htz
  have hspec := hInv.lookup_spec t s htz
  unfold lookupSpec at hspec
  by_cases hc : D.train_students.contains s ∧ skillTrials D st t s ≠ []
  · rw [if_pos hc] at hspec
    constructor
    · rw [hspec]
      constructor
      · intro _
        exact ⟨List.elem_iff.mp hc.1, skillTrials_ne_nil_iff.mp hc.2⟩
      · intro _
        exact ⟨skillTrials D st t s, rfl⟩
    · intro l hl
      rw [hspec] at hl
      injection hl with hl
      rw [← hl]
      exact hc.2
  · rw [if_neg hc] at hspec
    constructor
    · rw [hspec]
      constructor
      · rintro ⟨l, hl⟩
        exact Option.noConfusion hl
      · rintro ⟨htr, hex⟩
        exact absurd ⟨List.elem_iff.mpr htr, skillTrials_ne_nil_iff.mpr hex⟩ hc
    · intro l hl
      rw [hspec] at hl
      exact Option.noConfusion hl

theorem remove_snd_true_iff (D : Dataset) (st : ChainState) (item table_id : Nat) :
    (remove_item_from_table D st item table_id).2 = true ↔
      usub1 ((st.table_sizes table_id).getD 0) = 0 := by
  unfold remove_item_from_table
  by_cases hz : usub1 ((st.table_sizes table_id).getD 0) = 0
  · rw [if_pos hz]
    simp [hz]
  · rw [if_neg hz]
    simp [hz]

theorem assign_seating_any_flag (D : Dataset) (st : ChainState) (item table_id : Nat)
    (flag : Bool) (p : BktParams) :
    (assign_item_to_table D st item table_id flag p).seating_arrangement =
      fun i => if i = item then table_id else st.seating_arrangement i := by
  cases flag
  · exact assign_false_seating D st item table_id p
  · exact assign_true_seating D st item table_id p

/-- C4: removing an item from its table and immediately re-assigning it to the
same table (as a fresh table exactly when the removal deleted it, with
whatever parameter record the re-assignment draws) restores the
per-(table, student) trial-index structure and the seating arrangement
exactly, in every reachable state where the item is seated at that table. -/
theorem remove_assign_roundtrip {D : Dataset} {st : ChainState} {item t : Nat}
    (hWF : DatasetWF D) (hre : Reachable D st)
    (hseat : st.seating_arrangement item = t) (ht : t ≠ UNASSIGNED)
    (hN : item < D.num_items) (p : BktParams) :
    (assign_item_to_table D (remove_item_from_table D st item t).1 item t
        (remove_item_from_table D st item t).2 p).trial_lookup = st.trial_lookup ∧
    (assign_item_to_table D (remove_item_from_table D st item t).1 item t
        (remove_item_from_table D st item t).2 p).seating_arrangement =
      st.seating_arrangement := by
  have hInv := inv_of_reachable hWF hre
  set st1 := (remove_item_from_table D st item t).1 with hst1
  set flag := (remove_item_from_table D st item t).2 with hflag
  set st2 := assign_item_to_table D st1 item t flag p with hst2
  have hInv1 : Inv0 D st1 := inv0_remove hWF hInv.toInv0 hseat hN ht
  have hseat1 : st1.seating_arrangement item = UNASSIGNED := by
    rw [hst1, remove_seating]
    simp
  have hseateq : st2.seating_arrangement = st.seating_arrangement := by
    rw [hst2, assign_seating_any_flag]
    funext i
    by_cases hi : i = item
    · subst hi
      rw [if_pos rfl, hseat]
    · rw [if_neg hi, hst1, remove_seating]
      show (if i = item then UNASSIGNED else st.seating_arrangement i) = _
      rw [if_neg hi]
  have hInv2 : Inv0 D st2 := by
    rw [hst2]
    cases hfv : flag
    · -- table survived: it is still extant in st1
      have husub : ¬ usub1 ((st.table_sizes t).getD 0) = 0 := by
        intro hc
        have := (remove_snd_true_iff D st item t).mpr hc
        rw [← hflag, hfv] at this
        exact Bool.noConfusion this
      have hsz1 : (st1.table_sizes t).isSome := by
        rw [hst1, remove_item_from_table_fst, if_neg husub]
        show (if t = t then some (usub1 ((st.table_sizes t).getD 0))
          else st.table_sizes t).isSome
        rw [if_pos rfl]
        simp
      exact inv0_assign_old hWF hInv1 p hseat1 hN ht hsz1
    · -- table was deleted: it is unregistered in st1
      have husub : usub1 ((st.table_sizes t).getD 0) = 0 := by
        apply (remove_snd_true_iff D st item t).mp
        rw [← hflag, hfv]
      have hsz1 : st1.table_sizes t = none := by
        rw [hst1, remove_item_from_table_fst, if_pos husub]
        show (if t = t then none else st.table_sizes t) = none
        rw [if_pos rfl]
      exact inv0_assign_new hWF hInv1 p hseat1 hN ht hsz1
  refine ⟨?_, hseateq⟩
  funext t' s
  by_cases htz : t' = UNASSIGNED
  · subst htz
    rw [hInv2.zero_lookup s, hInv.zero_lookup s]
  · rw [hInv2.lookup_spec t' s htz, hInv.lookup_spec t' s htz]
    unfold lookupSpec skillTrials
    rw [hseateq]

/-- A small concrete dataset used to instantiate theorems: one training
student with two trials on two items, both expert-labelled skill 0. -/
def Dw : Dataset where
  num_students := 1
  num_items := 2
  train_students := [0]
  recall_sequences := [[true, true]]
  item_sequences := [[0, 1]]
  provided_skill_assignments := [0, 0]

theorem Dw_wf : DatasetWF Dw := by
  refine ⟨by norm_num [Dw], rfl, rfl, ?_, ?_⟩
  · intro s
    match s with
    | 0 => rfl
    | Nat.succ n => rfl
  · intro s j hj
    match s with
    | 0 =>
        have hj2 : j < 2 := by simpa [Dataset.seqOf, Dw] using hj
        interval_cases j <;> decide
    | Nat.succ n =>
        simp [Dataset.seqOf, Dw, List.getD] at hj

theorem wcrp_chain_state_invariants_witness :
    DatasetWF Dw ∧ Reachable Dw (initState Dw (fun _ => default)) ∧
      ((initState Dw (fun _ => default)).num_used_skills =
          {t : Nat | ∃ n, (initState Dw (fun _ => default)).table_sizes t = some n ∧
            0 < n}.ncard ∧
        (∀ item, item < Dw.num_items →
          (initState Dw (fun _ => default)).seating_arrangement item = UNASSIGNED ∨
          ∃ n, (initState Dw (fun _ => default)).table_sizes
            ((initState Dw (fun _ => default)).seating_arrangement item) = some n ∧
              0 < n) ∧
        (∀ t s l, (initState Dw (fun _ => default)).trial_lookup t s = some l →
          l.Pairwise (· < ·))) :=
  ⟨Dw_wf, Reachable.init (fun _ => default),
    wcrp_chain_state_invariants Dw_wf (Reachable.init (fun _ => default))⟩

theorem trial_lookup_entries_spec_witness :
    DatasetWF Dw ∧ Reachable Dw (initState Dw (fun _ => default)) ∧
      (∀ t s, t ≠ UNASSIGNED →
        ((∃ l, (initState Dw (fun _ => default)).trial_lookup t s = some l) ↔
          s ∈ Dw.train_students ∧
            ∃ j, j < (Dw.seqOf s).length ∧
              (initState Dw (fun _ => default)).seating_arrangement (Dw.itemAt s j) = t) ∧
        (∀ l, (initState Dw (fun _ => default)).trial_lookup t s = some l → l ≠ [])) :=
  ⟨Dw_wf, Reachable.init (fun _ => default),
    trial_lookup_entries_spec Dw_wf (Reachable.init (fun _ => default))⟩

theorem remove_assign_roundtrip_witness :
    (initState Dw (fun _ => default)).seating_arrangement 0 = 1 ∧ (1 : Nat) ≠ UNASSIGNED ∧
      0 < Dw.num_items ∧
      ((assign_item_to_table Dw
          (remove_item_from_table Dw (initState Dw (fun _ => default)) 0 1).1 0 1
          (remove_item_from_table Dw (initState Dw (fun _ => default)) 0 1).2
          default).trial_lookup = (initState Dw (fun _ => default)).trial_lookup ∧
        (assign_item_to_table Dw
          (remove_item_from_table Dw (initState Dw (fun _ => default)) 0 1).1 0 1
          (remove_item_from_table Dw (initState Dw (fun _ => default)) 0 1).2
          default).seating_arrangement =
            (initState Dw (fun _ => default)).seating_arrangement) :=
  ⟨by decide, by decide, by decide,
    remove_assign_roundtrip Dw_wf (Reachable.init (fun _ => default))
      (by decide) (by decide) (by decide) default⟩

noncomputable section RealValued

/-- The BKT predicted probability of a correct response given the mastery
belief `phat`: `pi0 * (1 - p_hat) + pi1 * p_hat` with `pi0 = pi1 * prop0`. -/
def bktPredict (p : BktParams) (phat : ℝ) : ℝ :=
  p.pi1 * p.prop0 * (1 - phat) + p.pi1 * phat

/-- The exact two-state filtering update of the mastery belief after an
observed trial outcome (the recall / no-recall update formulas repeated in
`skill_log_likelihood`, `cache_p_hat`, `record_sample` and
`data_log_likelihood`). -/
def bktStep (p : BktParams) (phat : ℝ) (did_recall : Bool) : ℝ :=
  if did_recall then
    (p.pi1 * phat + p.mu * (p.pi1 * p.prop0) * (1 - phat)) /
      (p.pi1 * phat + (p.pi1 * p.prop0) * (1 - phat))
  else
    ((1 - p.pi1) * phat + p.mu * (1 - p.pi1 * p.prop0) * (1 - phat)) /
      ((1 - p.pi1) * phat + (1 - p.pi1 * p.prop0) * (1 - phat))

/-- The per-trial log-likelihood contribution. -/
def bktLogLik (p : BktParams) (phat : ℝ) (did_recall : Bool) : ℝ :=
  if did_recall then Real.log (bktPredict p phat)
  else Real.log (1 - bktPredict p phat)

/-- One student's (log-likelihood, belief) fold for the from-scratch
`skill_log_likelihood`: every listed trial advances the belief from the prior
`psi`, but only trials at or after `start_trial` contribute log-likelihood. -/
def studentScratch (D : Dataset) (p : BktParams) (s start_trial : Nat)
    (trials : List Nat) : ℝ × ℝ :=
  trials.foldl (fun acc j =>
    ((if start_trial ≤ j then acc.1 + bktLogLik p acc.2 (D.recallAt s j) else acc.1),
      bktStep p acc.2 (D.recallAt s j))) (0, p.psi)

/-- One student's (log-likelihood, belief) fold for the cached
`skill_log_likelihood`: trials before `start_trial` are skipped entirely and
the belief starts from the supplied cached value. -/
def studentCached (D : Dataset) (p : BktParams) (s start_trial : Nat)
    (trials : List Nat) (init_phat : ℝ) : ℝ × ℝ :=
  trials.foldl (fun acc j =>
    if start_trial ≤ j then
      (acc.1 + bktLogLik p acc.2 (D.recallAt s j), bktStep p acc.2 (D.recallAt s j))
    else acc) (0, init_phat)

/-- The per-student clamp
`if (student_skill_log_lik > 0.0) student_skill_log_lik = 0.0`. -/
def clampStudent (x : ℝ) : ℝ := if 0 < x then 0 else x

/-- `MixtureWCRP::skill_log_likelihood` (three-argument overload: evaluation
from scratch).  Fails (`none`) exactly where the C++ would throw: a
`first_exposures` vector shorter than `affected_students`, a missing
`parameters` entry, or a missing `trial_lookup` entry for an affected
student. -/
def skill_log_likelihood_scratch (D : Dataset) (st : ChainState) (table_id : Nat)
    (affected_students first_exposures : List Nat) : Option ℝ :=
  if affected_students.length ≤ first_exposures.length then
    match st.parameters table_id with
    | none => none
    | some p =>
        if ∀ k ∈ List.range affected_students.length,
            (st.trial_lookup table_id (affected_students.getD k 0)).isSome then
          some (min 0 (((List.range affected_students.length).map (fun k =>
            clampStudent (studentScratch D p (affected_students.getD k 0)
              (first_exposures.getD k 0)
              ((st.trial_lookup table_id (affected_students.getD k 0)).getD [])).1)).sum))
        else none
  else none

/-- `MixtureWCRP::skill_log_likelihood` (four-argument overload: evaluation
from the cached beliefs `init_p_hat`).  Returns 0 for a non-existent or empty
table; students with no `trial_lookup` entry are skipped; fails (`none`)
exactly where the C++ would throw (missing `parameters` entry, short vectors,
or a cached belief map without the table's key). -/
def skill_log_likelihood_cached (D : Dataset) (st : ChainState) (table_id : Nat)
    (affected_students first_exposures : List Nat)
    (init_p_hat : List (Nat → Option ℝ)) : Option ℝ :=
  if (st.table_sizes table_id).getD 0 = 0 then some 0
  else
    match st.parameters table_id with
    | none => none
    | some p =>
        if affected_students.length ≤ first_exposures.length ∧
            affected_students.length ≤ init_p_hat.length then
          if ∀ k ∈ List.range affected_students.length,
              (st.trial_lookup table_id (affected_students.getD k 0)).isSome →
                ((init_p_hat.getD k (fun _ => none)) table_id).isSome then
            some (((List.range affected_students.length).map (fun k =>
              match st.trial_lookup table_id (affected_students.getD k 0) with
              | none => 0
              | some trials =>
                  clampStudent (studentCached D p (affected_students.getD k 0)
                    (first_exposures.getD k 0) trials
                    (((init_p_hat.getD k (fun _ => none)) table_id).getD 0)).1)).sum)
          else none
        else none

/-- The belief-map update for one replayed trial: update the entry of the
table the trial's item is seated at (the loop body shared by `cache_p_hat`,
`record_sample` and `data_log_likelihood`). -/
def replayStep (D : Dataset) (st : ChainState) (s : Nat) (m : Nat → Option ℝ)
    (j : Nat) : Nat → Option ℝ :=
  fun t' =>
    if t' = st.seating_arrangement (D.itemAt s j) then
      some (bktStep
        ((st.parameters (st.seating_arrangement (D.itemAt s j))).getD default)
        ((m (st.seating_arrangement (D.itemAt s j))).getD 0) (D.recallAt s j))
    else m t'

/-- `MixtureWCRP::cache_p_hat`: initialise each parameterised table's belief
at its `psi` and replay trials `0 .. end_trial - 1`; fails (`none`) exactly
where the C++ would throw (a replayed trial beyond the recorded sequences, or
one whose item's table has no parameter record). -/
def cache_p_hat (D : Dataset) (st : ChainState) (s end_trial : Nat) :
    Option (Nat → Option ℝ) :=
  if end_trial ≤ (D.seqOf s).length ∧
      ∀ j ∈ List.range end_trial,
        (st.parameters (st.seating_arrangement (D.itemAt s j))).isSome then
    some ((List.range end_trial).foldl (replayStep D st s)
      (fun t' => (st.parameters t').map (·.psi)))
  else none

end RealValued

/-- C6: both `skill_log_likelihood` evaluation modes only ever return
non-positive values: each per-student contribution is clamped to 0 before
accumulation (`clampStudent`), so the accumulated total — and, for the
from-scratch mode, its final `min` with 0 — is at most 0 (in exact real
arithmetic no non-finite value can arise, so the C++ finiteness assertions
cannot fire). -/
theorem skill_log_likelihood_nonpos (D : Dataset) (st : ChainState) (table_id : Nat)
    (affected_students first_exposures : List Nat)
    (init_p_hat : List (Nat → Option ℝ)) :
    (∀ x : ℝ, clampStudent x ≤ 0 ∧ (0 < x → clampStudent x = 0)) ∧
    (∀ v : ℝ, skill_log_likelihood_scratch D st table_id affected_students
      first_exposures = some v → v ≤ 0) ∧
    (∀ v : ℝ, skill_log_likelihood_cached D st table_id affected_students
      first_exposures init_p_hat = some v → v ≤ 0) := by
  have hclamp : ∀ x : ℝ, clampStudent x ≤ 0 ∧ (0 < x → clampStudent x = 0) := by
    intro x
    unfold clampStudent
    by_cases hx : (0 : ℝ) < x
    · rw [if_pos hx]
      exact ⟨le_refl 0, fun _ => rfl⟩
    · rw [if_neg hx]
      exact ⟨le_of_not_lt hx, fun hc => absurd hc hx⟩
  refine ⟨hclamp, ?_, ?_⟩
  · intro v hv
    unfold skill_log_likelihood_scratch at hv
    by_cases h1 : affected_students.length ≤ first_exposures.length
    · rw [if_pos h1] at hv
      cases hp : st.parameters table_id with
      | none => rw [hp] at hv; exact Option.noConfusion hv
      | some p =>
          rw [hp] at hv
          simp only at hv
          by_cases h2 : ∀ k ∈ List.range affected_students.length,
              (st.trial_lookup table_id (affected_students.getD k 0)).isSome
          · rw [if_pos h2] at hv
            injection hv with hv
            rw [← hv]
            exact min_le_left 0 _
          · rw [if_neg h2] at hv
            exact Option.noConfusion hv
    · rw [if_neg h1] at hv
      exact Option.noConfusion hv
  · intro v hv
    unfold skill_log_likelihood_cached at hv
    by_cases h0 : (st.table_sizes table_id).getD 0 = 0
    · rw [if_pos h0] at hv
      injection hv with hv
      rw [← hv]
    · rw [if_neg h0] at hv
      cases hp : st.parameters table_id with
      | none => rw [hp] at hv; exact Option.noConfusion hv
      | some p =>
          rw [hp] at hv
          simp only at hv
          by_cases h1 : affected_students.length ≤ first_exposures.length ∧
              affected_students.length ≤ init_p_hat.length
          · rw [if_pos h1] at hv
            by_cases h2 : ∀ k ∈ List.range affected_students.length,
                (st.trial_lookup table_id (affected_students.getD k 0)).isSome →
                  ((init_p_hat.getD k (fun _ => none)) table_id).isSome
            · rw [if_pos h2] at hv
              injection hv with hv
              rw [← hv]
              apply list_sum_nonpos
              intro x hx
              obtain ⟨k, _, hk⟩ := List.mem_map.mp hx
              rw [← hk]
              cases st.trial_lookup table_id (affected_students.getD k 0) with
              | none => exact le_refl 0
              | some trials => exact (hclamp _).1
            · rw [if_neg h2] at hv
              exact Option.noConfusion hv
          · rw [if_neg h1] at hv
            exact Option.noConfusion hv

theorem replay_foldl_at_key {D : Dataset} {st : ChainState} {s t : Nat} :
    ∀ (js : List Nat) (m : Nat → Option ℝ),
      (js.foldl (replayStep D st s) m) t =
        (js.filter (fun j => st.seating_arrangement (D.itemAt s j) == t)).foldl
          (fun acc j => some (bktStep ((st.parameters t).getD default)
            (acc.getD 0) (D.recallAt s j))) (m t) := by
  intro js
  induction js with
  | nil => intro m; rfl
  | cons j js ih =>
      intro m
      simp only [List.foldl_cons]
      by_cases hj : st.seating_arrangement (D.itemAt s j) = t
      · rw [List.filter_cons_of_pos (by simpa using hj)]
        simp only [List.foldl_cons]
        rw [ih]
        congr 1
        show replayStep D st s m j t = _
        unfold replayStep
        rw [if_pos hj.symm, hj]
      · rw [List.filter_cons_of_neg (by simpa using hj)]
        rw [ih]
        congr 1
        show replayStep D st s m j t = m t
        unfold replayStep
        rw [if_neg (fun hc => hj hc.symm)]

theorem optfold_some (g : ℝ → Nat → ℝ) :
    ∀ (lst : List Nat) (b : ℝ),
      lst.foldl (fun acc j => some (g (acc.getD 0) j)) (some b) =
        some (lst.foldl g b) := by
  intro lst
  induction lst with
  | nil => intro b; rfl
  | cons j js ih =>
      intro b
      simp only [List.foldl_cons, Option.getD_some]
      exact ih _

theorem range_filter_comm {P : Nat → Bool} {e len : Nat} (he : e ≤ len) :
    (List.range e).filter P =
      ((List.range len).filter P).filter (fun j => decide (j < e)) := by
  have h1 : List.range e = (List.range len).filter (fun j => decide (j < e)) :=
    (filter_range_lt he).symm
  rw [h1, List.filter_filter, List.filter_filter]
  exact List.filter_congr (fun j _ => by rw [Bool.and_comm])

theorem studentScratch_prefix {D : Dataset} {p : BktParams} {s e : Nat} :
    ∀ (l₁ : List Nat), (∀ j ∈ l₁, ¬ e ≤ j) → ∀ (x ph : ℝ),
      l₁.foldl (fun acc j =>
        ((if e ≤ j then acc.1 + bktLogLik p acc.2 (D.recallAt s j) else acc.1),
          bktStep p acc.2 (D.recallAt s j))) (x, ph) =
        (x, l₁.foldl (fun ph j => bktStep p ph (D.recallAt s j)) ph) := by
  intro l₁
  induction l₁ with
  | nil => intro _ x ph; rfl
  | cons j js ih =>
      intro h x ph
      simp only [List.foldl_cons]
      rw [if_neg (h j (by simp))]
      exact ih (fun j' hj' => h j' (by simp [hj'])) x _

theorem studentCached_skip {D : Dataset} {p : BktParams} {s e : Nat} :
    ∀ (l₁ : List Nat), (∀ j ∈ l₁, ¬ e ≤ j) → ∀ (acc : ℝ × ℝ),
      l₁.foldl (fun acc j =>
        if e ≤ j then
          (acc.1 + bktLogLik p acc.2 (D.recallAt s j), bktStep p acc.2 (D.recallAt s j))
        else acc) acc = acc := by
  intro l₁
  induction l₁ with
  | nil => intro _ acc; rfl
  | cons j js ih =>
      intro h acc
      simp only [List.foldl_cons]
      rw [if_neg (h j (by simp))]
      exact ih (fun j' hj' => h j' (by simp [hj'])) acc

theorem cached_suffix_eq {D : Dataset} {p : BktParams} {s e : Nat} :
    ∀ (l₂ : List Nat), (∀ j ∈ l₂, e ≤ j) → ∀ (acc : ℝ × ℝ),
      l₂.foldl (fun acc j =>
        if e ≤ j then
          (acc.1 + bktLogLik p acc.2 (D.recallAt s j), bktStep p acc.2 (D.recallAt s j))
        else acc) acc =
      l₂.foldl (fun acc j =>
        ((if e ≤ j then acc.1 + bktLogLik p acc.2 (D.recallAt s j) else acc.1),
          bktStep p acc.2 (D.recallAt s j))) acc := by
  intro l₂
  induction l₂ with
  | nil => intro _ acc; rfl
  | cons j js ih =>
      intro h acc
      simp only [List.foldl_cons]
      rw [if_pos (h j (by simp)), if_pos (h j (by simp))]
      exact ih (fun j' hj' => h j' (by simp [hj'])) _

/-- The cached per-student evaluation, started from the belief reached by
replaying the trials below `start_trial`, accumulates exactly the same
log-likelihood as the from-scratch evaluation. -/
theorem studentCached_eq_scratch {D : Dataset} (p : BktParams) (s e : Nat)
    {l : List Nat} (hl : l.Pairwise (· < ·)) :
    (studentCached D p s e l
      ((l.filter (fun j => decide (j < e))).foldl
        (fun ph j => bktStep p ph (D.recallAt s j)) p.psi)).1 =
      (studentScratch D p s e l).1 := by
  unfold studentCached studentScratch
  have hsplit := sorted_split_filter e hl
  have h₁ : ∀ j ∈ l.filter (fun j => decide (j < e)), ¬ e ≤ j := by
    intro j hj
    have := List.of_mem_filter hj
    simp at this
    omega
  have h₂ : ∀ j ∈ l.filter (fun j => !decide (j < e)), e ≤ j := by
    intro j hj
    have := List.of_mem_filter hj
    simp at this
    omega
  conv_lhs => rw [← hsplit]
  conv_rhs => rw [← hsplit]
  rw [List.foldl_append, List.foldl_append]
  rw [studentCached_skip _ h₁, studentScratch_prefix _ h₁]
  rw [cached_suffix_eq _ h₂, hsplit]

theorem getD_map_range {α : Type} {f : Nat → α} {n k : Nat} (hk : k < n) (d : α) :
    ((List.range n).map f).getD k d = f k := by
  rw [List.getD_eq_getElem _ _ (by simpa using hk)]
  simp

/-- The belief `cache_p_hat` computes for a parameterised table equals the
fold of the filtering update over the student's sub-`end_trial` trials on
items seated at that table. -/
theorem cache_p_hat_at_table {D : Dataset} {st : ChainState} {s e table_id : Nat}
    {p : BktParams} (hp : st.parameters table_id = some p)
    (he : e ≤ (D.seqOf s).length)
    (hok : ∀ j ∈ List.range e,
      (st.parameters (st.seating_arrangement (D.itemAt s j))).isSome) :
    cache_p_hat D st s e = some ((List.range e).foldl (replayStep D st s)
      (fun t' => (st.parameters t').map (·.psi))) ∧
    ((List.range e).foldl (replayStep D st s)
        (fun t' => (st.parameters t').map (·.psi))) table_id =
      some (((skillTrials D st table_id s).filter (fun j => decide (j < e))).foldl
        (fun ph j => bktStep p ph (D.recallAt s j)) p.psi) := by
  constructor
  · unfold cache_p_hat
    rw [if_pos ⟨he, hok⟩]
  · rw [replay_foldl_at_key, hp]
    simp only [Option.map_some', Option.getD_some]
    rw [optfold_some (fun ph j => bktStep p ph (D.recallAt s j))]
    unfold skillTrials
    rw [← range_filter_comm he]

/-- C2: on any reachable chain state, for an extant table and affected
students with lookup entries, evaluating `skill_log_likelihood` from scratch
and evaluating it from the beliefs `cache_p_hat` produces at each student's
start trial give exactly the same (defined) log-likelihood. -/
theorem skill_log_likelihood_cached_eq_scratch {D : Dataset} {st : ChainState}
    (hWF : DatasetWF D) (hre : Reachable D st) {table_id : Nat}
    (ht : table_id ≠ UNASSIGNED) (hsz : (st.table_sizes table_id).isSome)
    (affected_students first_exposures : List Nat)
    (hlen : affected_students.length = first_exposures.length)
    (hentry : ∀ k, k < affected_students.length →
      (st.trial_lookup table_id (affected_students.getD k 0)).isSome)
    (hstart : ∀ k, k < affected_students.length →
      first_exposures.getD k 0 ≤ (D.seqOf (affected_students.getD k 0)).length)
    (hseated : ∀ k, k < affected_students.length →
      ∀ j, j < first_exposures.getD k 0 →
        st.seating_arrangement (D.itemAt (affected_students.getD k 0) j) ≠ UNASSIGNED) :
    (∀ k, k < affected_students.length →
      (cache_p_hat D st (affected_students.getD k 0)
        (first_exposures.getD k 0)).isSome) ∧
    skill_log_likelihood_cached D st table_id affected_students first_exposures
        ((List.range affected_students.length).map (fun k =>
          (cache_p_hat D st (affected_students.getD k 0)
            (first_exposures.getD k 0)).getD (fun _ => none))) =
      skill_log_likelihood_scratch D st table_id affected_students first_exposures ∧
    (skill_log_likelihood_scratch D st table_id affected_students
      first_exposures).isSome := by
  have hInv := inv_of_reachable hWF hre
  obtain ⟨p, hp⟩ := Option.isSome_iff_exists.mp ((hInv.params_iff table_id).mpr hsz)
  have hok : ∀ k, k < affected_students.length →
      ∀ j ∈ List.range (first_exposures.getD k 0),
        (st.parameters (st.seating_arrangement
          (D.itemAt (affected_students.getD k 0) j))).isSome := by
    intro k hk j hj
    have hjlt := List.mem_range.mp hj
    have hjlen : j < (D.seqOf (affected_students.getD k 0)).length := by
      have := hstart k hk
      omega
    have hia := hWF.items_in_range (affected_students.getD k 0) j hjlen
    have hne := hseated k hk j hjlt
    have hcpos : 0 < countItems D st
        (st.seating_arrangement (D.itemAt (affected_students.getD k 0) j)) :=
      countItems_pos rfl hia
    have hspec := hInv.sizes_spec _ hne
    rw [if_neg (by omega)] at hspec
    apply (hInv.params_iff _).mpr
    rw [hspec]
    simp
  have hcache : ∀ k, k < affected_students.length →
      cache_p_hat D st (affected_students.getD k 0) (first_exposures.getD k 0) =
        some ((List.range (first_exposures.getD k 0)).foldl
          (replayStep D st (affected_students.getD k 0))
          (fun t' => (st.parameters t').map (·.psi))) ∧
      ((List.range (first_exposures.getD k 0)).foldl
          (replayStep D st (affected_students.getD k 0))
          (fun t' => (st.parameters t').map (·.psi))) table_id =
        some (((skillTrials D st table_id (affected_students.getD k 0)).filter
            (fun j => decide (j < first_exposures.getD k 0))).foldl
          (fun ph j => bktStep p ph (D.recallAt (affected_students.getD k 0) j))
          p.psi) :=
    fun k hk => cache_p_hat_at_table hp (hstart k hk) (hok k hk)
  have hlook : ∀ k, k < affected_students.length →
      st.trial_lookup table_id (affected_students.getD k 0) =
        some (skillTrials D st table_id (affected_students.getD k 0)) := by
    intro k hk
    have hspec := hInv.lookup_spec table_id (affected_students.getD k 0) ht
    unfold lookupSpec at hspec
    by_cases hc : D.train_students.contains (affected_students.getD k 0) ∧
        skillTrials D st table_id (affected_students.getD k 0) ≠ []
    · rw [if_pos hc] at hspec
      exact hspec
    · rw [if_neg hc] at hspec
      have := hentry k hk
      rw [hspec] at this
      simp at this
  refine ⟨?_, ?_, ?_⟩
  · intro k hk
    rw [(hcache k hk).1]
    simp
  · -- the two evaluation modes agree
    have hcount := hInv.sizes_eq_count ht hsz
    unfold skill_log_likelihood_cached skill_log_likelihood_scratch
    rw [if_neg (by rw [hcount.1]; simpa using hcount.2)]
    rw [hp]
    simp only
    rw [if_pos ⟨le_of_eq hlen, by rw [List.length_map, List.length_range]⟩]
    rw [if_pos (by
      intro k hkmem _
      have hk := List.mem_range.mp hkmem
      rw [getD_map_range hk, (hcache k hk).1]
      simp only [Option.getD_some]
      rw [(hcache k hk).2]
      simp)]
    rw [if_pos (le_of_eq hlen)]
    rw [if_pos (by
      intro k hkmem
      exact hentry k (List.mem_range.mp hkmem))]
    have hterm : ∀ k ∈ List.range affected_students.length,
        (match st.trial_lookup table_id (affected_students.getD k 0) with
          | none => (0 : ℝ)
          | some trials =>
              clampStudent (studentCached D p (affected_students.getD k 0)
                (first_exposures.getD k 0) trials
                ((((List.range affected_students.length).map (fun k =>
                  (cache_p_hat D st (affected_students.getD k 0)
                    (first_exposures.getD k 0)).getD (fun _ => none))).getD k
                      (fun _ => none) table_id).getD 0)).1) =
        clampStudent (studentScratch D p (affected_students.getD k 0)
          (first_exposures.getD k 0)
          ((st.trial_lookup table_id (affected_students.getD k 0)).getD [])).1 := by
      intro k hkmem
      have hk := List.mem_range.mp hkmem
      rw [hlook k hk]
      simp only [Option.getD_some]
      rw [getD_map_range hk, (hcache k hk).1]
      simp only [Option.getD_some]
      rw [(hcache k hk).2]
      simp only [Option.getD_some]
      rw [studentCached_eq_scratch p (affected_students.getD k 0)
        (first_exposures.getD k 0)
        (skillTrials_pairwise D st table_id (affected_students.getD k 0))]
    rw [List.map_congr_left hterm]
    have hsum : (((List.range affected_students.length).map (fun k =>
        clampStudent (studentScratch D p (affected_students.getD k 0)
          (first_exposures.getD k 0)
          ((st.trial_lookup table_id (affected_students.getD k 0)).getD [])).1)).sum :
            ℝ) ≤ 0 := by
      apply list_sum_nonpos
      intro x hx
      obtain ⟨k, _, hk⟩ := List.mem_map.mp hx
      rw [← hk]
      unfold clampStudent
      by_cases hc : (0 : ℝ) < (studentScratch D p (affected_students.getD k 0)
          (first_exposures.getD k 0)
          ((st.trial_lookup table_id (affected_students.getD k 0)).getD [])).1
      · rw [if_pos hc]
      · rw [if_neg hc]
        exact le_of_not_lt hc
    rw [min_eq_right hsum]
  · unfold skill_log_likelihood_scratch
    rw [if_pos (le_of_eq hlen), hp]
    simp only
    rw [if_pos (by
      intro k hkmem
      exact hentry k (List.mem_range.mp hkmem))]
    simp

/-- The chain state the `Dw` constructor builds (with an arbitrary fixed
parameter draw). -/
def stInit : ChainState := initState Dw (fun _ => default)

theorem skill_log_likelihood_cached_eq_scratch_witness :
    ((1 : Nat) ≠ UNASSIGNED) ∧ ((stInit.table_sizes 1).isSome = true) ∧
    (([0] : List Nat).length = ([0] : List Nat).length) ∧
    (∀ k, k < ([0] : List Nat).length →
      (stInit.trial_lookup 1 (([0] : List Nat).getD k 0)).isSome) ∧
    (∀ k, k < ([0] : List Nat).length →
      ([0] : List Nat).getD k 0 ≤ (Dw.seqOf (([0] : List Nat).getD k 0)).length) ∧
    (∀ k, k < ([0] : List Nat).length → ∀ j, j < ([0] : List Nat).getD k 0 →
      stInit.seating_arrangement (Dw.itemAt (([0] : List Nat).getD k 0) j) ≠
        UNASSIGNED) ∧
    ((∀ k, k < ([0] : List Nat).length →
        (cache_p_hat Dw stInit (([0] : List Nat).getD k 0)
          (([0] : List Nat).getD k 0)).isSome) ∧
      skill_log_likelihood_cached Dw stInit 1 [0] [0]
          ((List.range ([0] : List Nat).length).map (fun k =>
            (cache_p_hat Dw stInit (([0] : List Nat).getD k 0)
              (([0] : List Nat).getD k 0)).getD (fun _ => none))) =
        skill_log_likelihood_scratch Dw stInit 1 [0] [0] ∧
      (skill_log_likelihood_scratch Dw stInit 1 [0] [0]).isSome) := by
  have h1 : ∀ k, k < ([0] : List Nat).length →
      (stInit.trial_lookup 1 (([0] : List Nat).getD k 0)).isSome := by
    intro k hk
    have hk1 : k < 1 := by simpa using hk
    interval_cases k
    decide
  have h2 : ∀ k, k < ([0] : List Nat).length →
      ([0] : List Nat).getD k 0 ≤ (Dw.seqOf (([0] : List Nat).getD k 0)).length := by
    intro k hk
    have hk1 : k < 1 := by simpa using hk
    interval_cases k
    decide
  have h3 : ∀ k, k < ([0] : List Nat).length → ∀ j, j < ([0] : List Nat).getD k 0 →
      stInit.seating_arrangement (Dw.itemAt (([0] : List Nat).getD k 0) j) ≠
        UNASSIGNED := by
    intro k hk j hj
    have hk1 : k < 1 := by simpa using hk
    interval_cases k
    simp at hj
  exact ⟨by decide, by decide, rfl, h1, h2, h3,
    skill_log_likelihood_cached_eq_scratch Dw_wf (Reachable.init (fun _ => default))
      (by decide) (by decide) [0] [0] rfl h1 h2 h3⟩

theorem skill_log_likelihood_nonpos_witness :
    (clampStudent 1 ≤ 0 ∧ ((0 : ℝ) < 1 → clampStudent 1 = 0)) ∧
    skill_log_likelihood_scratch Dw stInit 1 [] [] =
      some (min 0 (List.sum ([] : List ℝ))) ∧
    min 0 (List.sum ([] : List ℝ)) ≤ 0 ∧
    skill_log_likelihood_cached Dw stInit 1 [] [] [] =
      some (List.sum ([] : List ℝ)) ∧
    List.sum ([] : List ℝ) ≤ 0 := by
  have hs : skill_log_likelihood_scratch Dw stInit 1 [] [] =
      some (min 0 (List.sum ([] : List ℝ))) := rfl
  have hc : skill_log_likelihood_cached Dw stInit 1 [] [] [] =
      some (List.sum ([] : List ℝ)) := rfl
  exact ⟨(skill_log_likelihood_nonpos Dw stInit 1 [] [] []).1 1, hs,
    (skill_log_likelihood_nonpos Dw stInit 1 [] [] []).2.1 _ hs, hc,
    (skill_log_likelihood_nonpos Dw stInit 1 [] [] []).2.2 _ hc⟩

/-! ### The seating-probability factor `compute_K` -/

/-- The items other than `item` currently seated at `table_id` among item
indices `0 .. end_idx - 1` (the counting loop of `MixtureWCRP::compute_K`,
with `end_idx = item` in generative mode and `num_items` otherwise). -/
def tablemates (st : ChainState) (item table_id end_idx : Nat) : List Nat :=
  (List.range end_idx).filter
    (fun other => (other != item) && (st.seating_arrangement other == table_id))

/-- The expert-provided labels of those items, with multiplicity: the
`counts` map built by `compute_K` holds each distinct value of this list
together with its multiplicity. -/
def tableLabels (D : Dataset) (st : ChainState) (item table_id end_idx : Nat) :
    List Nat :=
  (tablemates st item table_id end_idx).map D.labelOf

/-- `max_count`: the largest multiplicity any expert label attains at the
table, `0` when no other item is seated there. -/
def maxLabelCount (labels : List Nat) : Nat :=
  (labels.dedup.map (fun lbl => labels.count lbl)).foldr max 0

/-- The arithmetic of `MixtureWCRP::compute_K` as a function of the label
multiset at the table: `numerator_K / denominator_K` where `numerator_K` is
`gamma ^ (max_count - n_j)` when the item's own expert label occurs at the
table with multiplicity `n_j` and `gamma ^ max_count` otherwise, and
`denominator_K` is `(num_expert_provided_skills - counts.size()) * gamma ^
max_count` plus the sum of `gamma ^ (max_count - n_k)` over the distinct
labels present.  The `size_t` subtraction in the first summand never wraps
because every expert label is below `num_expert_provided_skills`, so it is
`Nat` subtraction, and the `int` exponents are non-negative because no
multiplicity exceeds `max_count`. -/
noncomputable def computeKFrom (gamma : ℝ) (num_skills item_expert_label : Nat)
    (labels : List Nat) : ℝ :=
  (if item_expert_label ∈ labels then
      gamma ^ (maxLabelCount labels - labels.count item_expert_label)
    else gamma ^ maxLabelCount labels) /
  (((num_skills - labels.dedup.length : ℕ) : ℝ) * gamma ^ maxLabelCount labels +
    (labels.dedup.map
      (fun lbl => gamma ^ (maxLabelCount labels - labels.count lbl))).sum)

/-- `MixtureWCRP::compute_K` (MixtureWCRP.cpp lines 83–109). -/
noncomputable def compute_K (D : Dataset) (st : ChainState) (log_gamma : ℝ)
    (item table_id : Nat) (generative_mode : Bool) : ℝ :=
  computeKFrom (Real.exp log_gamma) D.num_expert_provided_skills (D.labelOf item)
    (tableLabels D st item table_id (if generative_mode then item else D.num_items))

theorem count_le_maxLabelCount {labels : List Nat} {lbl : Nat} :
    labels.count lbl ≤ maxLabelCount labels := by
  by_cases h : lbl ∈ labels
  · exact le_foldr_max (List.mem_map.mpr ⟨lbl, List.mem_dedup.mpr h, rfl⟩)
  · rw [List.count_eq_zero.mpr h]
    exact Nat.zero_le _

theorem dedup_length_le_of_lt {labels : List Nat} {V : Nat}
    (hV : ∀ x ∈ labels, x < V) : labels.dedup.length ≤ V := by
  have hsub : labels.dedup ⊆ List.range V := fun x hx =>
    List.mem_range.mpr (hV x (List.mem_dedup.mp hx))
  have h := (labels.nodup_dedup.subperm hsub).length_le
  simpa [List.length_range] using h

theorem dedup_length_lt_of_not_mem {labels : List Nat} {V lbl : Nat}
    (hV : ∀ x ∈ labels, x < V) (hlbl : lbl < V) (hmem : lbl ∉ labels) :
    labels.dedup.length < V := by
  have hnd : (lbl :: labels.dedup).Nodup :=
    List.nodup_cons.mpr ⟨fun h => hmem (List.mem_dedup.mp h), labels.nodup_dedup⟩
  have hsub : (lbl :: labels.dedup) ⊆ List.range V := by
    intro x hx
    rcases List.mem_cons.mp hx with h | h
    · subst h; exact List.mem_range.mpr hlbl
    · exact List.mem_range.mpr (hV x (List.mem_dedup.mp h))
  have h := (hnd.subperm hsub).length_le
  simp only [List.length_cons, List.length_range] at h
  omega

/-- The value of `compute_K` is strictly positive and at most one whenever
every expert label (the table's and the item's) is below the number of
expert-provided skills. -/
theorem computeKFrom_pos_le_one {gamma : ℝ} (hγ : 0 < gamma) {V L₀ : Nat}
    {labels : List Nat} (hV : ∀ x ∈ labels, x < V) (hL₀ : L₀ < V) :
    0 < computeKFrom gamma V L₀ labels ∧ computeKFrom gamma V L₀ labels ≤ 1 := by
  unfold computeKFrom
  have hpow : ∀ n : Nat, (0 : ℝ) < gamma ^ n := fun n => pow_pos hγ n
  have hSnn : 0 ≤ (labels.dedup.map
      (fun lbl => gamma ^ (maxLabelCount labels - labels.count lbl))).sum := by
    apply List.sum_nonneg
    intro x hx
    rcases List.mem_map.mp hx with ⟨l, _, rfl⟩
    exact le_of_lt (hpow _)
  have hAnn : 0 ≤ ((V - labels.dedup.length : ℕ) : ℝ) * gamma ^ maxLabelCount labels :=
    mul_nonneg (Nat.cast_nonneg _) (le_of_lt (hpow _))
  have hden : 0 < ((V - labels.dedup.length : ℕ) : ℝ) * gamma ^ maxLabelCount labels +
      (labels.dedup.map
        (fun lbl => gamma ^ (maxLabelCount labels - labels.count lbl))).sum := by
    rcases eq_or_ne labels [] with hnil | hnil
    · subst hnil
      simp only [List.dedup_nil, List.length_nil, Nat.sub_zero, List.map_nil,
        List.sum_nil, add_zero]
      exact mul_pos (by exact_mod_cast Nat.pos_of_ne_zero (by omega)) (hpow _)
    · have hd : labels.dedup ≠ [] := by
        simpa [List.dedup_eq_nil] using hnil
      have hS : 0 < (labels.dedup.map
          (fun lbl => gamma ^ (maxLabelCount labels - labels.count lbl))).sum := by
        apply List.sum_pos
        · intro x hx
          rcases List.mem_map.mp hx with ⟨l, _, rfl⟩
          exact hpow _
        · simpa using hd
      linarith
  have hnum_le : (if L₀ ∈ labels then
        gamma ^ (maxLabelCount labels - labels.count L₀)
      else gamma ^ maxLabelCount labels) ≤
      ((V - labels.dedup.length : ℕ) : ℝ) * gamma ^ maxLabelCount labels +
        (labels.dedup.map
          (fun lbl => gamma ^ (maxLabelCount labels - labels.count lbl))).sum := by
    by_cases hmem : L₀ ∈ labels
    · rw [if_pos hmem]
      have hin : gamma ^ (maxLabelCount labels - labels.count L₀) ∈
          labels.dedup.map
            (fun lbl => gamma ^ (maxLabelCount labels - labels.count lbl)) :=
        List.mem_map.mpr ⟨L₀, List.mem_dedup.mpr hmem, rfl⟩
      have hle := List.single_le_sum (fun x hx => by
        rcases List.mem_map.mp hx with ⟨l, _, rfl⟩
        exact le_of_lt (hpow _)) _ hin
      linarith
    · rw [if_neg hmem]
      have h1n : 1 ≤ V - labels.dedup.length := by
        have := dedup_length_lt_of_not_mem hV hL₀ hmem
        omega
      have h1 : (1 : ℝ) ≤ ((V - labels.dedup.length : ℕ) : ℝ) := by
        exact_mod_cast h1n
      have hmul : gamma ^ maxLabelCount labels ≤
          ((V - labels.dedup.length : ℕ) : ℝ) * gamma ^ maxLabelCount labels := by
        nlinarith [hpow (maxLabelCount labels)]
      linarith
  refine ⟨div_pos ?_ hden, (div_le_one hden).mpr hnum_le⟩
  by_cases hmem : L₀ ∈ labels
  · rw [if_pos hmem]; exact hpow _
  · rw [if_neg hmem]; exact hpow _

theorem dedup_of_all_eq {l : List Nat} {a : Nat} (hne : l ≠ [])
    (h : ∀ x ∈ l, x = a) : l.dedup = [a] := by
  have h1 : ∀ x ∈ l.dedup, x = a := fun x hx => h x (List.mem_dedup.mp hx)
  have h2 : a ∈ l.dedup := by
    rcases List.exists_mem_of_ne_nil l hne with ⟨y, hy⟩
    have hya := h y hy
    rw [← hya]
    exact List.mem_dedup.mpr hy
  have hnd := l.nodup_dedup
  cases hd : l.dedup with
  | nil => rw [hd] at h2; simp at h2
  | cons x xs =>
      rw [hd] at h1 hnd
      have hx : x = a := h1 x (by simp)
      cases xs with
      | nil => rw [hx]
      | cons y ys =>
          have hy : y = a := h1 y (by simp)
          rw [List.nodup_cons] at hnd
          exact absurd (by simp [hx, hy]) hnd.1

/-- When every label at the table equals the item's own label `L₀`, the
value of `compute_K` collapses to `1 / (1 + (V - 1) * gamma ^ n)` where `n`
is the number of other items at the table (the empty table gives `1 / V`). -/
theorem computeKFrom_pure {gamma : ℝ} {V L₀ : Nat} {labels : List Nat}
    (hV1 : 1 ≤ V) (hpure : ∀ x ∈ labels, x = L₀) :
    computeKFrom gamma V L₀ labels =
      1 / (1 + ((V - 1 : ℕ) : ℝ) * gamma ^ labels.length) := by
  unfold computeKFrom
  have hc : ((V - 1 : ℕ) : ℝ) = (V : ℝ) - 1 := by
    rw [Nat.cast_sub hV1, Nat.cast_one]
  rcases eq_or_ne labels [] with hnil | hnil
  · subst hnil
    simp only [maxLabelCount, List.dedup_nil, List.map_nil, List.foldr_nil,
      List.length_nil, Nat.sub_zero, List.sum_nil, add_zero, List.not_mem_nil,
      if_false, pow_zero, mul_one]
    rw [hc]
    ring_nf
  · have hmem : L₀ ∈ labels := by
      rcases List.exists_mem_of_ne_nil labels hnil with ⟨y, hy⟩
      have hya := hpure y hy
      rw [← hya]
      exact hy
    have hd : labels.dedup = [L₀] := dedup_of_all_eq hnil hpure
    have hcnt : labels.count L₀ = labels.length :=
      List.count_eq_length.mpr (fun b hb => (hpure b hb).symm)
    have hM : maxLabelCount labels = labels.length := by
      rw [maxLabelCount, hd]
      simp [hcnt]
    rw [if_pos hmem, hd]
    simp only [List.length_cons, List.length_nil, Nat.zero_add, List.map_cons,
      List.map_nil, List.sum_cons, List.sum_nil, add_zero, hM, hcnt,
      Nat.sub_self, pow_zero]
    rw [add_comm]

/-- C3 (amended): for every item, table and `log_gamma` the seating factor
`compute_K` lies in the half-open interval (0, 1]; but when every other item
seated at the table shares the item's expert-provided label the factor
equals `1 / (1 + (num_expert_provided_skills - 1) * gamma ^ n)` with `n` the
number of those tablemates — this is 1 only in degenerate cases (a dataset
with a single expert label, or in the limit `gamma → 0`), not in general as
the spec asserts. -/
theorem compute_K_in_unit_interval (D : Dataset) (st : ChainState) (log_gamma : ℝ)
    (item table_id : Nat) (generative_mode : Bool) :
    (0 < compute_K D st log_gamma item table_id generative_mode ∧
      compute_K D st log_gamma item table_id generative_mode ≤ 1) ∧
    ((∀ other ∈ tablemates st item table_id
        (if generative_mode then item else D.num_items),
        D.labelOf other = D.labelOf item) →
      compute_K D st log_gamma item table_id generative_mode =
        1 / (1 + ((D.num_expert_provided_skills - 1 : ℕ) : ℝ) *
          Real.exp log_gamma ^
            (tablemates st item table_id
              (if generative_mode then item else D.num_items)).length)) := by
  have hγ := Real.exp_pos log_gamma
  have hL₀ : D.labelOf item < D.num_expert_provided_skills := by
    have h := labelOf_le_max D item
    unfold Dataset.num_expert_provided_skills
    omega
  have hV : ∀ x ∈ tableLabels D st item table_id
      (if generative_mode then item else D.num_items),
      x < D.num_expert_provided_skills := by
    intro x hx
    rcases List.mem_map.mp hx with ⟨o, _, rfl⟩
    have h := labelOf_le_max D o
    unfold Dataset.num_expert_provided_skills
    omega
  constructor
  · exact computeKFrom_pos_le_one hγ hV hL₀
  · intro hpure
    have hlabels : ∀ x ∈ tableLabels D st item table_id
        (if generative_mode then item else D.num_items), x = D.labelOf item := by
      intro x hx
      rcases List.mem_map.mp hx with ⟨o, ho, rfl⟩
      exact hpure o ho
    unfold compute_K
    rw [computeKFrom_pure (by unfold Dataset.num_expert_provided_skills; omega) hlabels]
    simp only [tableLabels, List.length_map]

/-- The dataset for the concrete `compute_K` evaluations below: items 0 and 1
share expert label 0 while item 2 carries label 1, so there are two
expert-provided skills. -/
def Dk : Dataset where
  num_students := 1
  num_items := 3
  train_students := [0]
  recall_sequences := [[true]]
  item_sequences := [[0]]
  provided_skill_assignments := [0, 0, 1]

/-- The constructor state for `Dk` (items 0 and 1 seated at table 1, item 2
at table 2) after removing item 0 from its table: the state from which
`gibbs_resample_skill` evaluates `compute_K` for item 0. -/
def stK : ChainState :=
  (remove_item_from_table Dk (initState Dk (fun _ => default)) 0 1).1

/-- C3 (counterexample): in the reachable state `stK` the only other item at
table 1 (item 1) shares item 0's expert label, yet with `log_gamma = 0` (the
value the constructor fixes for `beta = 0`) `compute_K` is `1/2`, not 1: the
spec's "equals 1 whenever all other items currently seated at the table share
the item's expert-provided label" is false whenever the dataset has more than
one expert label and `gamma > 0`. -/
theorem compute_K_pure_table_not_one :
    Reachable Dk stK ∧
    stK.seating_arrangement 0 = UNASSIGNED ∧
    (∀ other ∈ tablemates stK 0 1 Dk.num_items,
      Dk.labelOf other = Dk.labelOf 0) ∧
    tablemates stK 0 1 Dk.num_items ≠ [] ∧
    compute_K Dk stK 0 0 1 false = 1 / 2 ∧
    (1 : ℝ) / 2 ≠ 1 := by
  have hreach : Reachable Dk stK :=
    Reachable.remove _ 0 1 (Reachable.init (fun _ => default))
      (by decide) (by decide) (by decide)
  have hlab : tableLabels Dk stK 0 1 (if false then 0 else Dk.num_items) = [0] := by
    decide
  have hv : Dk.num_expert_provided_skills = 2 := by decide
  have hded : ([0] : List Nat).dedup = [0] := by decide
  have hK : compute_K Dk stK 0 0 1 false = 1 / 2 := by
    unfold compute_K
    rw [hlab, hv]
    unfold computeKFrom maxLabelCount
    norm_num [Real.exp_zero, hded]
  exact ⟨hreach, by decide, by decide, by decide, hK, by norm_num⟩

theorem compute_K_in_unit_interval_witness :
    ((0 < compute_K Dk stK 0 0 1 false ∧ compute_K Dk stK 0 0 1 false ≤ 1) ∧
      compute_K Dk stK 0 0 1 false =
        1 / (1 + ((Dk.num_expert_provided_skills - 1 : ℕ) : ℝ) *
          Real.exp 0 ^
            (tablemates stK 0 1 (if false then 0 else Dk.num_items)).length)) :=
  ⟨(compute_K_in_unit_interval Dk stK 0 0 1 false).1,
    (compute_K_in_unit_interval Dk stK 0 0 1 false).2 (by decide)⟩

/-! ### The sample recorder and its queries -/

noncomputable section Samples

/-- The argmax scan of `get_most_likely_skill_labels`: `best_ll` starts at 0
and `best_sample` at 0, and sample `k` becomes the new best iff `k = 0` or
its recorded log-likelihood strictly exceeds the best so far. -/
def bestScan (lls : List ℝ) (n : Nat) : ℝ × Nat :=
  (List.range n).foldl (fun acc k =>
    if k = 0 ∨ acc.1 < lls.getD k 0 then (lls.getD k 0, k) else acc) ((0 : ℝ), 0)

/-- The index of the retained sample `get_most_likely_skill_labels` picks. -/
def bestSampleIdx (lls : List ℝ) : Nat := (bestScan lls lls.length).2

/-- `MixtureWCRP::get_most_likely_skill_labels` (MixtureWCRP.cpp lines
279–294); the two asserts (a recorded sample exists; the log-likelihood and
partition sample lists are parallel) are the `none` cases. -/
def get_most_likely_skill_labels (st : ChainState) : Option (List Nat) :=
  if st.skill_label_samples = [] then none
  else if st.train_ll_samples.length = st.skill_label_samples.length then
    some (st.skill_label_samples.getD (bestSampleIdx st.train_ll_samples) [])
  else none

end Samples

/-- The scan of `get_most_likely_skill_labels` lands on an in-range index
holding a maximal recorded log-likelihood (the `sample == 0` clause makes the
`best_ll = 0` initialisation irrelevant). -/
theorem bestScan_spec (lls : List ℝ) :
    ∀ n, 1 ≤ n →
      (bestScan lls n).2 < n ∧
      (bestScan lls n).1 = lls.getD (bestScan lls n).2 0 ∧
      ∀ j < n, lls.getD j 0 ≤ (bestScan lls n).1 := by
  intro n hn
  induction n with
  | zero => omega
  | succ m ih =>
      have hstep : bestScan lls (m + 1) =
          if m = 0 ∨ (bestScan lls m).1 < lls.getD m 0 then (lls.getD m 0, m)
          else bestScan lls m := by
        rw [bestScan, bestScan, List.range_succ, List.foldl_append, List.foldl_cons,
          List.foldl_nil]
      rcases Nat.eq_zero_or_pos m with hm | hm
      · subst hm
        rw [hstep, if_pos (Or.inl rfl)]
        refine ⟨Nat.zero_lt_one, rfl, ?_⟩
        intro j hj
        interval_cases j
        exact le_refl _
      · obtain ⟨h1, h2, h3⟩ := ih hm
        by_cases hc : m = 0 ∨ (bestScan lls m).1 < lls.getD m 0
        · rw [hstep, if_pos hc]
          refine ⟨Nat.lt_succ_self m, rfl, ?_⟩
          intro j hj
          rcases Nat.lt_succ_iff_lt_or_eq.mp hj with hj' | hj'
          · rcases hc with hc | hc
            · omega
            · exact le_of_lt (lt_of_le_of_lt (h3 j hj') hc)
          · subst hj'
            exact le_refl _
        · rw [hstep, if_neg hc]
          push_neg at hc
          refine ⟨Nat.lt_succ_of_lt h1, h2, ?_⟩
          intro j hj
          rcases Nat.lt_succ_iff_lt_or_eq.mp hj with hj' | hj'
          · exact h3 j hj'
          · subst hj'
            exact hc.2

/-- C7: with at least one recorded sample and parallel sample lists,
`get_most_likely_skill_labels` returns the stored partition vector of a
retained sample whose recorded training log-likelihood is maximal, and the
query is pure: it depends only on the recorded sample lists, so calling it
twice without additional sampling in between returns identical results. -/
theorem most_likely_skill_labels_spec (st : ChainState)
    (hne : st.skill_label_samples ≠ [])
    (hlen : st.train_ll_samples.length = st.skill_label_samples.length) :
    (∃ i < st.skill_label_samples.length,
      get_most_likely_skill_labels st = some (st.skill_label_samples.getD i []) ∧
      ∀ j < st.train_ll_samples.length,
        st.train_ll_samples.getD j 0 ≤ st.train_ll_samples.getD i 0) ∧
    (∀ st' : ChainState, st'.train_ll_samples = st.train_ll_samples →
      st'.skill_label_samples = st.skill_label_samples →
      get_most_likely_skill_labels st' = get_most_likely_skill_labels st) := by
  have hpos : 1 ≤ st.train_ll_samples.length := by
    rw [hlen]
    exact List.length_pos.mpr hne
  obtain ⟨h1, h2, h3⟩ := bestScan_spec st.train_ll_samples _ hpos
  constructor
  · refine ⟨bestSampleIdx st.train_ll_samples, ?_, ?_, ?_⟩
    · rw [← hlen]
      exact h1
    · rw [get_most_likely_skill_labels, if_neg hne, if_pos hlen]
    · intro j hj
      have hle := h3 j hj
      rw [h2] at hle
      exact hle
  · intro st' ht hs
    rw [get_most_likely_skill_labels, get_most_likely_skill_labels, ht, hs]

/-- A chain state carrying two recorded samples, for the concrete
instantiations below. -/
def stQ : ChainState :=
  { emptyState with
      skill_label_samples := [[0, 0], [0, 1]],
      train_ll_samples := [-2, -1] }

theorem most_likely_skill_labels_spec_witness :
    stQ.skill_label_samples ≠ [] ∧
    stQ.train_ll_samples.length = stQ.skill_label_samples.length ∧
    ((∃ i < stQ.skill_label_samples.length,
        get_most_likely_skill_labels stQ = some (stQ.skill_label_samples.getD i []) ∧
        ∀ j < stQ.train_ll_samples.length,
          stQ.train_ll_samples.getD j 0 ≤ stQ.train_ll_samples.getD i 0) ∧
      (∀ st' : ChainState, st'.train_ll_samples = stQ.train_ll_samples →
        st'.skill_label_samples = stQ.skill_label_samples →
        get_most_likely_skill_labels st' = get_most_likely_skill_labels stQ)) :=
  ⟨by decide, by decide, most_likely_skill_labels_spec stQ (by decide) (by decide)⟩

/-- The position of the first occurrence of `t` in a list (the list length
when absent): the label an insertion-ordered map assigns to key `t`. -/
def firstIdx (t : Nat) : List Nat → Nat
  | [] => 0
  | a :: l => if a = t then 0 else firstIdx t l + 1

/-- The distinct values of a list in order of first occurrence: the insertion
order of the keys of the `skill_labels` map built by `record_sample`. -/
def firstOccs (tables : List Nat) : List Nat :=
  tables.foldl (fun acc t => if t ∈ acc then acc else acc ++ [t]) []

/-- The dense relabelling loop of `record_sample` (MixtureWCRP.cpp lines
466–472).  The `boost::unordered_map` `skill_labels` maps a table id to the
number of distinct table ids seen strictly before its first occurrence, so it
is represented by the insertion-ordered list `seen` of its keys:
`skill_labels.at(t)` is `firstIdx t seen` and `skill_labels.size()` is
`seen.length` (the assignment `skill_labels[table_id] = skill_labels.size()`
reads the size before the insertion). -/
def relabelLoop (seen : List Nat) : List Nat → List Nat
  | [] => []
  | t :: ts =>
      if t ∈ seen then firstIdx t seen :: relabelLoop seen ts
      else seen.length :: relabelLoop (seen ++ [t]) ts

/-- The per-sample partition vector `cur_assignments` stored by
`record_sample`, as a function of the list of per-item table ids. -/
def relabelPartition (tables : List Nat) : List Nat := relabelLoop [] tables

noncomputable section Recorder

/-- `vector_sum` (MixtureWCRP.cpp lines 33–36): `0.0` for the empty vector,
the accumulated sum otherwise. -/
def vector_sum (vec : List ℝ) : ℝ := vec.sum

/-- `vector_mean` (MixtureWCRP.cpp lines 38–41); its `assert(!vec.empty())`
is the `none` case. -/
def vector_mean (vec : List ℝ) : Option ℝ :=
  if vec.length = 0 then none else some (vector_sum vec / (vec.length : ℝ))

/-- `MixtureWCRP::get_estimated_recall_prob` (lines 263–266): the mean of the
predictions recorded for the (student, trial) pair, failing on the
`assert(!pRT_samples.at(student).at(trial).empty())` when none have been
recorded. -/
def get_estimated_recall_prob (st : ChainState) (student trial : Nat) : Option ℝ :=
  vector_mean (st.pRT_samples student trial)

/-- The predicted correct-response probability `record_sample` pushes for
trial `j` of student `s`: the BKT prediction of the trial's skill from the
belief obtained by replaying trials `0 .. j - 1` starting every
parameterised skill at its `psi` (the same fold as `cache_p_hat`). -/
def predictionAt (D : Dataset) (st : ChainState) (s j : Nat) : ℝ :=
  bktPredict ((st.parameters (st.seating_arrangement (D.itemAt s j))).getD default)
    ((((List.range j).foldl (replayStep D st s)
        (fun t' => (st.parameters t').map (·.psi)))
      (st.seating_arrangement (D.itemAt s j))).getD 0)

/-- `MixtureWCRP::record_sample` (MixtureWCRP.cpp lines 460–503): append the
training log-likelihood, append the densely relabelled copy of the current
partition, and push one prediction per (student, trial) of the dataset;
fails (`none`) exactly where the C++ `parameters.at` / `p_hat.at` lookups
would throw: some replayed trial's item is seated at a table with no
parameter record. -/
def record_sample (D : Dataset) (st : ChainState) (train_ll : ℝ) :
    Option ChainState :=
  if ∀ s ∈ List.range D.num_students, ∀ j ∈ List.range (D.recallOf s).length,
      (st.parameters (st.seating_arrangement (D.itemAt s j))).isSome then
    some { st with
      train_ll_samples := st.train_ll_samples ++ [train_ll],
      skill_label_samples := st.skill_label_samples ++
        [relabelPartition ((List.range D.num_items).map st.seating_arrangement)],
      pRT_samples := fun s j =>
        st.pRT_samples s j ++
          (if s < D.num_students ∧ j < (D.recallOf s).length then
            [predictionAt D st s j] else []) }
  else none

end Recorder

theorem firstIdx_append {t : Nat} {l : List Nat} (l' : List Nat) (h : t ∈ l) :
    firstIdx t (l ++ l') = firstIdx t l := by
  induction l with
  | nil => simp at h
  | cons a l ih =>
      rw [List.cons_append, firstIdx, firstIdx]
      by_cases ha : a = t
      · rw [if_pos ha, if_pos ha]
      · rw [if_neg ha, if_neg ha, ih]
        rcases List.mem_cons.mp h with h1 | h1
        · exact absurd h1.symm ha
        · exact h1

theorem firstIdx_lt_length {t : Nat} {l : List Nat} (h : t ∈ l) :
    firstIdx t l < l.length := by
  induction l with
  | nil => simp at h
  | cons a l ih =>
      rw [firstIdx, List.length_cons]
      by_cases ha : a = t
      · rw [if_pos ha]
        omega
      · rw [if_neg ha]
        have h1 : t ∈ l := by
          rcases List.mem_cons.mp h with h1 | h1
          · exact absurd h1.symm ha
          · exact h1
        have := ih h1
        omega

theorem firstIdx_append_self {t : Nat} {l : List Nat} (h : t ∉ l) :
    firstIdx t (l ++ [t]) = l.length := by
  induction l with
  | nil => simp [firstIdx]
  | cons a l ih =>
      have ha : a ≠ t := fun hc => h (hc ▸ List.mem_cons_self a l)
      rw [List.cons_append, firstIdx, if_neg ha, List.length_cons,
        ih (fun hc => h (List.mem_cons_of_mem a hc))]

theorem getD_firstIdx {t : Nat} {l : List Nat} (h : t ∈ l) :
    l.getD (firstIdx t l) 0 = t := by
  induction l with
  | nil => simp at h
  | cons a l ih =>
      rw [firstIdx]
      by_cases ha : a = t
      · rw [if_pos ha]
        exact ha
      · have h1 : t ∈ l := by
          rcases List.mem_cons.mp h with h1 | h1
          · exact absurd h1.symm ha
          · exact h1
        rw [if_neg ha, List.getD_cons_succ]
        exact ih h1

theorem firstIdx_getD {l : List Nat} (h : l.Nodup) :
    ∀ v, v < l.length → firstIdx (l.getD v 0) l = v := by
  induction l with
  | nil => intro v hv; simp at hv
  | cons a l ih =>
      intro v hv
      rcases List.nodup_cons.mp h with ⟨ha, hl⟩
      match v with
      | 0 => rw [List.getD_cons_zero, firstIdx, if_pos rfl]
      | v + 1 =>
          rw [List.length_cons] at hv
          have hv' : v < l.length := by omega
          have hmem : l.getD v 0 ∈ l := by
            rw [List.getD_eq_getElem _ _ hv']
            exact List.getElem_mem hv'
          have hne : a ≠ l.getD v 0 := fun hc => ha (by rw [hc]; exact hmem)
          rw [List.getD_cons_succ, firstIdx, if_neg hne, ih hl v hv']

theorem mem_occsFold {x : Nat} (l : List Nat) :
    ∀ acc, (x ∈ l.foldl (fun acc t => if t ∈ acc then acc else acc ++ [t]) acc ↔
      x ∈ acc ∨ x ∈ l) := by
  induction l with
  | nil => intro acc; simp
  | cons t l ih =>
      intro acc
      rw [List.foldl_cons, ih]
      by_cases ht : t ∈ acc
      · rw [if_pos ht]
        simp only [List.mem_cons]
        constructor
        · rintro (h | h)
          · exact Or.inl h
          · exact Or.inr (Or.inr h)
        · rintro (h | rfl | h)
          · exact Or.inl h
          · exact Or.inl ht
          · exact Or.inr h
      · rw [if_neg ht]
        simp only [List.mem_append, List.mem_cons, List.not_mem_nil, or_false]
        constructor
        · rintro ((h | h) | h)
          · exact Or.inl h
          · exact Or.inr (Or.inl h)
          · exact Or.inr (Or.inr h)
        · rintro (h | h | h)
          · exact Or.inl (Or.inl h)
          · exact Or.inl (Or.inr h)
          · exact Or.inr h

theorem mem_firstOccs {x : Nat} {l : List Nat} : x ∈ firstOccs l ↔ x ∈ l := by
  rw [firstOccs, mem_occsFold]
  simp

theorem nodup_occsFold (l : List Nat) :
    ∀ acc : List Nat, acc.Nodup →
      (l.foldl (fun acc t => if t ∈ acc then acc else acc ++ [t]) acc).Nodup := by
  induction l with
  | nil => intro acc h; simpa using h
  | cons t l ih =>
      intro acc h
      rw [List.foldl_cons]
      by_cases ht : t ∈ acc
      · rw [if_pos ht]
        exact ih acc h
      · rw [if_neg ht]
        refine ih _ ?_
        rw [List.nodup_append]
        refine ⟨h, List.nodup_singleton t, ?_⟩
        intro a ha hb
        rw [List.mem_singleton] at hb
        exact ht (hb ▸ ha)

theorem nodup_firstOccs (l : List Nat) : (firstOccs l).Nodup :=
  nodup_occsFold l [] List.nodup_nil

theorem occsFold_append_tail (l : List Nat) :
    ∀ acc : List Nat, ∃ tl,
      l.foldl (fun acc t => if t ∈ acc then acc else acc ++ [t]) acc = acc ++ tl := by
  induction l with
  | nil => intro acc; exact ⟨[], by simp⟩
  | cons t l ih =>
      intro acc
      rw [List.foldl_cons]
      by_cases ht : t ∈ acc
      · rw [if_pos ht]
        exact ih acc
      · rw [if_neg ht]
        obtain ⟨tl, htl⟩ := ih (acc ++ [t])
        exact ⟨[t] ++ tl, by rw [htl, List.append_assoc]⟩

/-- The relabelling loop assigns every position the first-occurrence index of
its table id in the final insertion order. -/
theorem relabelLoop_eq_map (ts : List Nat) :
    ∀ seen, relabelLoop seen ts = ts.map (fun t =>
      firstIdx t (ts.foldl (fun acc x => if x ∈ acc then acc else acc ++ [x]) seen)) := by
  induction ts with
  | nil => intro seen; rfl
  | cons t ts ih =>
      intro seen
      simp only [List.foldl_cons, List.map_cons, relabelLoop]
      by_cases ht : t ∈ seen
      · rw [if_pos ht, if_pos ht, ih seen]
        obtain ⟨tl, htl⟩ := occsFold_append_tail ts seen
        rw [htl, firstIdx_append tl ht]
      · rw [if_neg ht, if_neg ht, ih (seen ++ [t])]
        obtain ⟨tl, htl⟩ := occsFold_append_tail ts (seen ++ [t])
        rw [htl, firstIdx_append tl (by simp : t ∈ seen ++ [t]),
          firstIdx_append_self ht]

/-- `relabelPartition` maps every entry to the first-occurrence index of its
table id. -/
theorem relabelPartition_eq_map (tables : List Nat) :
    relabelPartition tables =
      tables.map (fun t => firstIdx t (firstOccs tables)) := by
  rw [relabelPartition, relabelLoop_eq_map tables [], firstOccs]

theorem length_firstOccs (tables : List Nat) :
    (firstOccs tables).length = tables.dedup.length := by
  have h1 : List.Subperm (firstOccs tables) tables.dedup :=
    (nodup_firstOccs tables).subperm (fun x hx =>
      List.mem_dedup.mpr (mem_firstOccs.mp hx))
  have h2 : List.Subperm tables.dedup (firstOccs tables) :=
    tables.nodup_dedup.subperm (fun x hx =>
      mem_firstOccs.mpr (List.mem_dedup.mp hx))
  exact Nat.le_antisymm h1.length_le h2.length_le

/-- The relabelled copy of a table-id list is a dense 0-based renaming:
same length, equal entries exactly where the table ids are equal, and value
set `{0, ..., k - 1}` for `k` the number of distinct table ids. -/
theorem relabelPartition_dense (tables : List Nat) :
    (relabelPartition tables).length = tables.length ∧
    (∀ i, i < tables.length → ∀ j, j < tables.length →
      ((relabelPartition tables).getD i 0 = (relabelPartition tables).getD j 0 ↔
        tables.getD i 0 = tables.getD j 0)) ∧
    (∀ v, v ∈ relabelPartition tables ↔ v < tables.dedup.length) := by
  rw [relabelPartition_eq_map]
  refine ⟨List.length_map _ _, ?_, ?_⟩
  · intro i hi j hj
    rw [List.getD_eq_getElem _ _ (by simpa using hi),
      List.getD_eq_getElem _ _ (by simpa using hj),
      List.getD_eq_getElem _ _ hi, List.getD_eq_getElem _ _ hj]
    simp only [List.getElem_map]
    constructor
    · intro hEq
      have m1 : tables[i] ∈ firstOccs tables :=
        mem_firstOccs.mpr (List.getElem_mem hi)
      have m2 : tables[j] ∈ firstOccs tables :=
        mem_firstOccs.mpr (List.getElem_mem hj)
      have e1 := getD_firstIdx m1
      have e2 := getD_firstIdx m2
      rw [← e1, ← e2, hEq]
    · intro hEq
      rw [hEq]
  · intro v
    rw [List.mem_map]
    constructor
    · rintro ⟨t, hmem, rfl⟩
      rw [← length_firstOccs]
      exact firstIdx_lt_length (mem_firstOccs.mpr hmem)
    · intro hv
      rw [← length_firstOccs] at hv
      have hmemF : (firstOccs tables).getD v 0 ∈ firstOccs tables := by
        rw [List.getD_eq_getElem _ _ hv]
        exact List.getElem_mem hv
      exact ⟨(firstOccs tables).getD v 0, mem_firstOccs.mp hmemF,
        firstIdx_getD (nodup_firstOccs tables) v hv⟩

/-- C9: the partition vector `record_sample` appends to
`skill_label_samples` is a dense 0-based relabelling private to the sample:
one entry per item, two items receive the same stored id iff they are
currently seated at the same table, and the stored ids are exactly
`{0, ..., k - 1}` where `k` is the number of distinct tables in the current
seating arrangement. -/
theorem record_sample_dense_relabel (D : Dataset) (st st' : ChainState) (x : ℝ)
    (h : record_sample D st x = some st') :
    st'.skill_label_samples = st.skill_label_samples ++
      [relabelPartition ((List.range D.num_items).map st.seating_arrangement)] ∧
    (relabelPartition ((List.range D.num_items).map st.seating_arrangement)).length =
      D.num_items ∧
    (∀ i, i < D.num_items → ∀ j, j < D.num_items →
      ((relabelPartition
          ((List.range D.num_items).map st.seating_arrangement)).getD i 0 =
        (relabelPartition
          ((List.range D.num_items).map st.seating_arrangement)).getD j 0 ↔
        st.seating_arrangement i = st.seating_arrangement j)) ∧
    (∀ v, v ∈ relabelPartition ((List.range D.num_items).map st.seating_arrangement) ↔
      v < (((List.range D.num_items).map st.seating_arrangement).dedup).length) := by
  obtain ⟨hlen, hpair, hval⟩ :=
    relabelPartition_dense ((List.range D.num_items).map st.seating_arrangement)
  have hT : ((List.range D.num_items).map st.seating_arrangement).length =
      D.num_items := by
    rw [List.length_map, List.length_range]
  rw [record_sample] at h
  split at h
  · have hst' : _ = st' := Option.some.inj h
    subst hst'
    refine ⟨rfl, by rw [hlen, hT], ?_, hval⟩
    intro i hi j hj
    rw [hpair i (by omega : i < _) j (by omega : j < _)]
    rw [getD_map_range hi, getD_map_range hj]
  · exact absurd h (by simp)

theorem record_sample_dense_relabel_witness :
    ∃ st', record_sample Dw stInit 0 = some st' ∧
      (st'.skill_label_samples = stInit.skill_label_samples ++
        [relabelPartition ((List.range Dw.num_items).map stInit.seating_arrangement)] ∧
      (relabelPartition
        ((List.range Dw.num_items).map stInit.seating_arrangement)).length =
        Dw.num_items ∧
      (∀ i, i < Dw.num_items → ∀ j, j < Dw.num_items →
        ((relabelPartition
            ((List.range Dw.num_items).map stInit.seating_arrangement)).getD i 0 =
          (relabelPartition
            ((List.range Dw.num_items).map stInit.seating_arrangement)).getD j 0 ↔
          stInit.seating_arrangement i = stInit.seating_arrangement j)) ∧
      (∀ v, v ∈ relabelPartition
          ((List.range Dw.num_items).map stInit.seating_arrangement) ↔
        v < (((List.range Dw.num_items).map stInit.seating_arrangement).dedup).length)) := by
  have hx : ∃ st', record_sample Dw stInit 0 = some st' := by
    rw [record_sample, if_pos]
    · exact ⟨_, rfl⟩
    · decide
  obtain ⟨st', hst⟩ := hx
  exact ⟨st', hst, record_sample_dense_relabel Dw stInit st' 0 hst⟩

/-- C8: `get_estimated_recall_prob` fails exactly when no prediction samples
have been recorded yet for the (student, trial) pair and otherwise returns
the arithmetic mean of the recorded predictions; each `record_sample` call
appends exactly one predicted correct-response probability for every
(student, trial) of the dataset and leaves all other entries untouched. -/
theorem estimated_recall_prob_spec (D : Dataset) (st st' : ChainState) (x : ℝ)
    (s j : Nat) (h : record_sample D st x = some st') :
    (get_estimated_recall_prob st s j = none ↔ st.pRT_samples s j = []) ∧
    (st.pRT_samples s j ≠ [] →
      get_estimated_recall_prob st s j =
        some (vector_sum (st.pRT_samples s j) / ((st.pRT_samples s j).length : ℝ))) ∧
    (s < D.num_students → j < (D.recallOf s).length →
      st'.pRT_samples s j = st.pRT_samples s j ++ [predictionAt D st s j]) ∧
    (¬(s < D.num_students ∧ j < (D.recallOf s).length) →
      st'.pRT_samples s j = st.pRT_samples s j) := by
  rw [record_sample] at h
  split at h
  · have hst' : _ = st' := Option.some.inj h
    subst hst'
    refine ⟨?_, ?_, ?_, ?_⟩
    · rw [get_estimated_recall_prob, vector_mean]
      by_cases hl : (st.pRT_samples s j).length = 0
      · rw [if_pos hl]
        simp [List.length_eq_zero.mp hl]
      · rw [if_neg hl]
        rw [List.length_eq_zero] at hl
        simp [hl]
    · intro hne
      rw [get_estimated_recall_prob, vector_mean,
        if_neg (fun hc => hne (List.length_eq_zero.mp hc))]
    · intro hs hj
      show st.pRT_samples s j ++
          (if s < D.num_students ∧ j < (D.recallOf s).length then
            [predictionAt D st s j] else []) =
        st.pRT_samples s j ++ [predictionAt D st s j]
      rw [if_pos ⟨hs, hj⟩]
    · intro hn
      show st.pRT_samples s j ++
          (if s < D.num_students ∧ j < (D.recallOf s).length then
            [predictionAt D st s j] else []) =
        st.pRT_samples s j
      rw [if_neg hn, List.append_nil]
  · exact absurd h (by simp)

theorem estimated_recall_prob_spec_witness :
    ∃ st', record_sample Dw stInit 0 = some st' ∧
      ((get_estimated_recall_prob stInit 0 0 = none ↔ stInit.pRT_samples 0 0 = []) ∧
      (stInit.pRT_samples 0 0 ≠ [] →
        get_estimated_recall_prob stInit 0 0 =
          some (vector_sum (stInit.pRT_samples 0 0) /
            ((stInit.pRT_samples 0 0).length : ℝ))) ∧
      (0 < Dw.num_students → 0 < (Dw.recallOf 0).length →
        st'.pRT_samples 0 0 = stInit.pRT_samples 0 0 ++ [predictionAt Dw stInit 0 0]) ∧
      (¬(0 < Dw.num_students ∧ 0 < (Dw.recallOf 0).length) →
        st'.pRT_samples 0 0 = stInit.pRT_samples 0 0)) := by
  have hx : ∃ st', record_sample Dw stInit 0 = some st' := by
    rw [record_sample, if_pos]
    · exact ⟨_, rfl⟩
    · decide
  obtain ⟨st', hst⟩ := hx
  exact ⟨st', hst, estimated_recall_prob_spec Dw stInit st' 0 0 0 hst⟩

/-! ### The guard structure of one `run_mcmc` iteration -/

/-- The sampler state `run_mcmc` iterates on: the chain state together with
the two WCRP hyperparameters its slice-sampling stages write
(`MixtureWCRP::log_gamma` and `MixtureWCRP::log_alpha_prime`). -/
structure McmcState where
  chain : ChainState
  log_gamma : ℝ
  log_alpha_prime : ℝ

/-- One iteration of `MixtureWCRP::run_mcmc` (MixtureWCRP.cpp lines
300–384) as its guard structure over the mutating stages, with the
pseudo-random outcomes supplied as oracles: `alpha_update` and
`gamma_update` are the values the two `slice_resample_wcrp_param` calls
would write into `log_alpha_prime` and `log_gamma`, `bkt_stage` is the
state effect of the BKT-parameter slice-sampling loop over `parameters`,
and `resweep` is the state effect of the `gibbs_resample_skill` sweep over
the shuffled items.  The guards are literal: line 309 runs the alpha'
update iff `!use_expert_labels && infer_alpha_prime`, line 312 runs the
gamma update iff `infer_gamma` (with no `use_expert_labels` test), and
lines 355–359 run the resweep iff `!use_expert_labels`.  The status
printing reads the state, and `record_sample` (guarded by `iter >= burn`)
is outside the scope of the hyperparameter-guard claim. -/
def run_mcmc_iteration (use_expert_labels infer_gamma infer_alpha_prime : Bool)
    (alpha_update gamma_update : ℝ) (bkt_stage resweep : ChainState → ChainState)
    (st : McmcState) : McmcState :=
  let st1 : McmcState :=
    if !use_expert_labels && infer_alpha_prime then
      { st with log_alpha_prime := alpha_update }
    else st
  let st2 : McmcState :=
    if infer_gamma then { st1 with log_gamma := gamma_update } else st1
  let st3 : McmcState := { st2 with chain := bkt_stage st2.chain }
  if !use_expert_labels then { st3 with chain := resweep st3.chain } else st3

/-- C5 (counterexample): with expert labels in use (`use_expert_labels =
true`, i.e. `beta = 1`) but `infer_gamma = true`, the iteration still
overwrites `log_gamma`: line 312 guards the gamma slice update only by
`infer_gamma`, so the spec's claim that both hyperparameter updates require
data-driven clustering is false for `log_gamma`. -/
theorem gamma_update_despite_expert_labels :
    (run_mcmc_iteration true true false 0 1 id id
      { chain := emptyState, log_gamma := 0, log_alpha_prime := 0 }).log_gamma = 1 ∧
    (1 : ℝ) ≠ 0 := by
  constructor
  · rfl
  · norm_num

/-- C5 (amended): in every `run_mcmc` iteration the `log_alpha_prime` slice
update is performed iff data-driven clustering is in use (`beta < 1`, so
`use_expert_labels` is false) and `infer_alpha_prime` is set; the
`log_gamma` slice update is performed iff `infer_gamma` is set — even when
the expert labels are used directly; and the partition resweep runs iff
data-driven clustering is in use. -/
theorem run_mcmc_iteration_guards (ue ig ia : Bool) (au gu : ℝ)
    (bkt resweep : ChainState → ChainState) (st : McmcState) :
    ((run_mcmc_iteration ue ig ia au gu bkt resweep st).log_alpha_prime =
      if !ue && ia then au else st.log_alpha_prime) ∧
    ((run_mcmc_iteration ue ig ia au gu bkt resweep st).log_gamma =
      if ig then gu else st.log_gamma) ∧
    ((run_mcmc_iteration ue ig ia au gu bkt resweep st).chain =
      if !ue then resweep (bkt st.chain) else bkt st.chain) := by
  cases ue <;> cases ig <;> cases ia <;>
    refine ⟨rfl, rfl, rfl⟩

end WCRP
